import Mathlib

/-!
Verification of the bitmap-allocator crate: a fixed-capacity bitmap
allocator built from a 16-bit leaf (`BitAlloc16`) and a 16-ary cascading
composite (`BitAllocCascade16<T>`), together with the shared
`find_contiguous` search.  The allocator family is embedded as a
depth-indexed type: depth 0 is the leaf, depth `n+1` composes 16 children
of depth `n`.  Rust panics (assertion failures, out-of-bounds indexing,
arithmetic underflow) are modelled as `none`; mutating operations are
state-passing functions.
-/

namespace BitmapAlloc

/-- Modelled from the spec: single-bit read of the `bit_field` crate (a
dependency whose source is not under `src/`): read bit `i` of word `w`. -/
def get_bit (w i : Nat) : Bool := w.testBit i

/-- Modelled from the spec: single-bit write of the `bit_field` crate:
set bit `i` of the 16-bit word `w` to `v`. -/
def set_bit (w i : Nat) (v : Bool) : Nat :=
  if v then w ||| 2 ^ i else w &&& ((2 ^ 16 - 1) ^^^ 2 ^ i)

/-- Modelled from the spec: packed read of the contiguous bit range
`[s, e)` of `w` (`bit_field` crate, source not under `src/`). -/
def get_bits (w s e : Nat) : Nat := (w >>> s) % 2 ^ (e - s)

/-- Modelled from the spec: packed write of value `v` into the contiguous
bit range `[s, e)` of the 16-bit word `w` (`bit_field` crate): bits of `w`
outside the range are kept, the range is overwritten with `v`. -/
def set_bits (w s e v : Nat) : Nat :=
  (w &&& ((2 ^ 16 - 1) ^^^ (2 ^ e - 2 ^ s))) ||| (v <<< s)

/-- Loop of `log2_naive` from the source: repeatedly shift right until the
word becomes zero, incrementing a counter that starts at `-1`. -/
def log2_naive_go (x : Nat) (pos : Int) : Int :=
  if x = 0 then pos else log2_naive_go (x >>> 1) (pos + 1)
termination_by x
decreasing_by
  simp only [Nat.shiftRight_eq_div_pow, pow_one]
  omega

/-- Portable shift-and-count fallback `log2_naive` from the source.  The
final `pos as usize` cast is `Int.toNat`; the source first asserts that
`x` is nonzero. -/
def log2_naive (x : Nat) : Nat := (log2_naive_go x (-1)).toNat

/-- Modelled from the spec: the hardware path of `log2` is the x86 `bsr`
instruction (inline assembly, not under `src/` as Rust), which yields the
0-based index of the most-significant set bit of a nonzero word; this is
exactly `Nat.log2`. -/
def log2 (x : Nat) : Nat := Nat.log2 x

theorem log2_naive_go_eq (x : Nat) (p : Int) (hx : x ≠ 0) :
    log2_naive_go x p = p + 1 + Nat.log2 x := by
  induction x using Nat.strong_induction_on generalizing p with
  | _ x ih =>
    rw [log2_naive_go, if_neg hx]
    rcases Nat.lt_or_ge x 2 with h2 | h2
    · interval_cases x
      · exact absurd rfl hx
      · have h0 : (1 : Nat) >>> 1 = 0 := rfl
        rw [h0, log2_naive_go]
        simp [Nat.log2]
    · have hs : x >>> 1 = x / 2 := by
        simp [Nat.shiftRight_eq_div_pow]
      have hne : x / 2 ≠ 0 := by omega
      have hlt : x / 2 < x := by omega
      rw [hs, ih (x / 2) hlt (p + 1) hne]
      conv_rhs => rw [Nat.log2]
      rw [if_pos h2]
      push_cast
      ring

theorem log2_naive_eq_log2 (x : Nat) (hx : x ≠ 0) : log2_naive x = log2 x := by
  unfold log2_naive log2
  rw [log2_naive_go_eq x (-1) hx]
  omega

theorem testBit_log2_self (x : Nat) (hx : x ≠ 0) :
    x.testBit (Nat.log2 x) = true := by
  have h1 : 2 ^ Nat.log2 x ≤ x := Nat.log2_self_le hx
  have h2 : x < 2 ^ (Nat.log2 x + 1) := Nat.lt_log2_self
  rw [pow_succ] at h2
  have hpos : 0 < 2 ^ Nat.log2 x := Nat.pos_pow_of_pos _ (by norm_num)
  have hdiv : x / 2 ^ Nat.log2 x = 1 := by
    have hl : 1 ≤ x / 2 ^ Nat.log2 x := (Nat.le_div_iff_mul_le hpos).2 (by omega)
    have hu : x / 2 ^ Nat.log2 x < 2 := Nat.div_lt_of_lt_mul (by omega)
    omega
  rw [Nat.testBit_to_div_mod, hdiv]
  norm_num

theorem testBit_of_log2_lt (x j : Nat) (hj : Nat.log2 x < j) :
    x.testBit j = false := by
  rcases Nat.eq_zero_or_pos x with hx | hx
  · simp [hx]
  · apply Nat.testBit_eq_false_of_lt
    calc x < 2 ^ (Nat.log2 x + 1) := Nat.lt_log2_self
    _ ≤ 2 ^ j := Nat.pow_le_pow_right (by norm_num) (by omega)

theorem log2_lt_16 (x : Nat) (hx : x ≠ 0) (h16 : x < 2 ^ 16) :
    Nat.log2 x < 16 := (Nat.log2_lt hx).2 h16

theorem lt_two_pow_iff_testBit (x n : Nat) :
    x < 2 ^ n ↔ ∀ j, n ≤ j → x.testBit j = false := by
  constructor
  · intro h j hj
    exact Nat.testBit_eq_false_of_lt
      (lt_of_lt_of_le h (Nat.pow_le_pow_right (by norm_num) hj))
  · intro h
    by_contra hc
    have hx : x ≠ 0 := by
      intro h0
      rw [h0] at hc
      exact hc (Nat.pos_pow_of_pos _ (by norm_num))
    have hn : n ≤ Nat.log2 x := by
      by_contra hn
      exact hc ((Nat.log2_lt hx).1 (by omega))
    have := h (Nat.log2 x) hn
    rw [testBit_log2_self x hx] at this
    exact Bool.noConfusion this

/-- Claim C8: for every nonzero 16-bit word `x`, the portable
shift-and-count fallback `log2_naive` returns the 0-based index of the
most-significant set bit of `x`, and its output equals the hardware
(`bsr`) path's output. -/
theorem C8_log2_fallback (x : Nat) (hx : x ≠ 0) (h16 : x < 2 ^ 16) :
    log2_naive x = log2 x ∧
    x.testBit (log2_naive x) = true ∧
    ∀ j, log2_naive x < j → x.testBit j = false := by
  have he := log2_naive_eq_log2 x hx
  refine ⟨he, ?_, ?_⟩
  · rw [he]
    exact testBit_log2_self x hx
  · intro j hj
    rw [he] at hj
    exact testBit_of_log2_lt x j hj

theorem C8_log2_fallback_witness :
    (40000 : Nat) ≠ 0 ∧ log2_naive 40000 = log2 40000 :=
  ⟨by decide, (C8_log2_fallback 40000 (by decide) (by decide)).1⟩

theorem testBit_ge_16 (w j : Nat) (hw : w < 2 ^ 16) (hj : 16 ≤ j) :
    w.testBit j = false :=
  Nat.testBit_eq_false_of_lt
    (lt_of_lt_of_le hw (Nat.pow_le_pow_right (by norm_num) hj))

theorem testBit_pow_sub_pow (a b j : Nat) (hab : a ≤ b) :
    (2 ^ b - 2 ^ a).testBit j = decide (a ≤ j ∧ j < b) := by
  have h : 2 ^ b - 2 ^ a = (2 ^ (b - a) - 1) <<< a := by
    rw [Nat.shiftLeft_eq, Nat.sub_mul, one_mul, ← pow_add]
    congr 2
    omega
  rw [h, Nat.testBit_shiftLeft, Nat.testBit_two_pow_sub_one]
  rcases Nat.lt_or_ge j a with h1 | h1
  · have e1 : decide (j ≥ a) = false := by simp; omega
    have e2 : decide (a ≤ j ∧ j < b) = false := by simp; omega
    rw [e1, e2, Bool.false_and]
  · have e1 : decide (j ≥ a) = true := by simp [h1]
    rw [e1, Bool.true_and, decide_eq_decide]
    omega

theorem testBit_mask_out (s e j : Nat) (hse : s ≤ e) (he : e ≤ 16) :
    ((2 ^ 16 - 1) ^^^ (2 ^ e - 2 ^ s)).testBit j =
      (decide (j < 16) && !decide (s ≤ j ∧ j < e)) := by
  rw [Nat.testBit_xor, Nat.testBit_two_pow_sub_one, testBit_pow_sub_pow s e j hse]
  by_cases h1 : j < 16
  · by_cases h2 : s ≤ j ∧ j < e <;> simp [h1, h2]
  · have h2 : ¬(s ≤ j ∧ j < e) := by omega
    simp [h1, h2]

theorem testBit_leaf_insert (w s e j : Nat) (hw : w < 2 ^ 16) (hse : s ≤ e)
    (he : e ≤ 16) :
    (set_bits w s e (get_bits (2 ^ 16 - 1) s e)).testBit j =
      (w.testBit j || decide (s ≤ j ∧ j < e)) := by
  unfold set_bits get_bits
  rw [Nat.testBit_lor, Nat.testBit_land, testBit_mask_out s e j hse he,
    Nat.testBit_shiftLeft, Nat.testBit_mod_two_pow, Nat.testBit_shiftRight,
    Nat.testBit_two_pow_sub_one]
  by_cases hs1 : s ≤ j
  · by_cases hin : j < e
    · have c1 : decide (j - s < e - s) = true := by simp; omega
      have c2 : decide (s + (j - s) < 16) = true := by simp; omega
      have c3 : decide (s ≤ j ∧ j < e) = true := by simp; omega
      have c4 : decide (j < 16) = true := by simp; omega
      have c5 : decide (j ≥ s) = true := by simp; omega
      rw [c1, c2, c3, c4, c5]
      simp
    · have c1 : decide (j - s < e - s) = false := by simp; omega
      have c3 : decide (s ≤ j ∧ j < e) = false := by simp; omega
      rw [c1, c3]
      by_cases hj : j < 16
      · have c4 : decide (j < 16) = true := by simp [hj]
        rw [c4]
        simp
      · have c4 : decide (j < 16) = false := by simp [hj]
        rw [c4, testBit_ge_16 w j hw (by omega)]
        simp
  · have c3 : decide (s ≤ j ∧ j < e) = false := by simp; omega
    have c5 : decide (j ≥ s) = false := by simp; omega
    rw [c3, c5]
    by_cases hj : j < 16
    · have c4 : decide (j < 16) = true := by simp [hj]
      rw [c4]
      simp
    · have c4 : decide (j < 16) = false := by simp [hj]
      rw [c4, testBit_ge_16 w j hw (by omega)]
      simp

theorem testBit_leaf_remove (w s e j : Nat) (hw : w < 2 ^ 16) (hse : s ≤ e)
    (he : e ≤ 16) :
    (set_bits w s e 0).testBit j = (w.testBit j && !decide (s ≤ j ∧ j < e)) := by
  unfold set_bits
  have h0 : (0 : Nat) <<< s = 0 := Nat.zero_shiftLeft s
  rw [h0, Nat.testBit_lor, Nat.testBit_land, testBit_mask_out s e j hse he,
    Nat.zero_testBit, Bool.or_false]
  by_cases hj : j < 16
  · simp [hj]
  · rw [testBit_ge_16 w j hw (by omega)]
    simp

theorem testBit_set_bit_true (w i j : Nat) :
    (set_bit w i true).testBit j = (w.testBit j || decide (j = i)) := by
  unfold set_bit
  rw [if_pos rfl, Nat.testBit_lor]
  by_cases h : j = i
  · subst h
    simp [Nat.testBit_two_pow_self]
  · simp [h, Nat.testBit_two_pow_of_ne (Ne.symm h)]

theorem testBit_set_bit_false (w i j : Nat) (hw : w < 2 ^ 16) (hi : i < 16) :
    (set_bit w i false).testBit j = (w.testBit j && !decide (j = i)) := by
  unfold set_bit
  rw [if_neg (by simp), Nat.testBit_land, Nat.testBit_xor,
    Nat.testBit_two_pow_sub_one]
  by_cases h : j = i
  · subst h
    simp [Nat.testBit_two_pow_self, hi]
  · rw [Nat.testBit_two_pow_of_ne (Ne.symm h)]
    by_cases hj : j < 16
    · simp [hj, h]
    · rw [testBit_ge_16 w j hw (by omega)]
      simp [hj, h]

theorem testBit_set_bit (w i j : Nat) (v : Bool) (hw : w < 2 ^ 16) (hi : i < 16) :
    (set_bit w i v).testBit j = (if j = i then v else w.testBit j) := by
  cases v
  · rw [testBit_set_bit_false w i j hw hi]
    by_cases h : j = i <;> simp [h]
  · rw [testBit_set_bit_true w i j]
    by_cases h : j = i <;> simp [h]

theorem set_bit_lt (w i : Nat) (v : Bool) (hw : w < 2 ^ 16) (hi : i < 16) :
    set_bit w i v < 2 ^ 16 := by
  rw [lt_two_pow_iff_testBit]
  intro j hj
  rw [testBit_set_bit w i j v hw hi, if_neg (by omega)]
  exact testBit_ge_16 w j hw hj

theorem leaf_insert_lt (w s e : Nat) (hw : w < 2 ^ 16) (hse : s ≤ e)
    (he : e ≤ 16) :
    set_bits w s e (get_bits (2 ^ 16 - 1) s e) < 2 ^ 16 := by
  rw [lt_two_pow_iff_testBit]
  intro j hj
  rw [testBit_leaf_insert w s e j hw hse he, testBit_ge_16 w j hw hj]
  simp
  omega

theorem leaf_remove_lt (w s e : Nat) (hw : w < 2 ^ 16) (hse : s ≤ e)
    (he : e ≤ 16) :
    set_bits w s e 0 < 2 ^ 16 := by
  rw [lt_two_pow_iff_testBit]
  intro j hj
  rw [testBit_leaf_remove w s e j hw hse he, testBit_ge_16 w j hw hj]
  simp

/-- State of the allocator family: depth 0 is `BitAlloc16` (one 16-bit
word), depth `n+1` is `BitAllocCascade16` over depth `n` (a 16-bit summary
word plus 16 children). -/
inductive BAState : Nat → Type where
  | leaf : Nat → BAState 0
  | node : {n : Nat} → Nat → (Fin 16 → BAState n) → BAState (n + 1)

/-- Capacity: 16 at the leaf, `T::CAP * 16` at each cascade level. -/
def CAP : Nat → Nat
  | 0 => 16
  | n + 1 => CAP n * 16

/-- Default state: all bits zero (everything allocated, nothing free). -/
def DEFAULT : (n : Nat) → BAState n
  | 0 => .leaf 0
  | n + 1 => .node 0 (fun _ => DEFAULT n)

/-- Operation `any`: the word (leaf) or summary word (cascade) is nonzero. -/
def any : (n : Nat) → BAState n → Bool
  | _, .leaf w => w != 0
  | _, .node bs _ => bs != 0

/-- Operation `test`: at a leaf read bit `key`; at a cascade delegate to
child `key / T::CAP` with local key `key % T::CAP`.  Indexing a child out
of range panics in Rust; the claims only evaluate `test` below capacity. -/
def test : (n : Nat) → BAState n → Nat → Bool
  | _, .leaf w, key => get_bit w key
  | n + 1, .node _ sub, key =>
    if h : key / CAP n < 16 then test n (sub ⟨key / CAP n, h⟩) (key % CAP n)
    else false

/-- Loop of the leaf `next`: scan bits upward from `i`; `fuel` is the
remaining number of loop iterations (`16 - i` at entry). -/
def next16go (w : Nat) : Nat → Nat → Option Nat
  | 0, _ => none
  | fuel + 1, i => if get_bit w i then some i else next16go w fuel (i + 1)

/-- Scan of the cascade `next` over child indices `i .. 16`, taking the
first summary-set child whose own `next 0` yields a value; `f` is the
child-level `next`. -/
def scanNext (C bs : Nat) (f : Fin 16 → Nat → Option Nat) :
    Nat → Nat → Option Nat
  | 0, _ => none
  | fuel + 1, i =>
    if h : i < 16 then
      if get_bit bs i then
        match f ⟨i, h⟩ 0 with
        | some x => some (x + C * i)
        | none => scanNext C bs f fuel (i + 1)
      else scanNext C bs f fuel (i + 1)
    else none

/-- Operation `next`: smallest free index at or after `key`. -/
def next : (n : Nat) → BAState n → Nat → Option Nat
  | _, .leaf w, key => next16go w (16 - key) key
  | n + 1, .node bs sub, key =>
    match (if h : key / CAP n < 16 then
            if get_bit bs (key / CAP n) then
              (next n (sub ⟨key / CAP n, h⟩) (key - CAP n * (key / CAP n))).map
                (fun x => x + CAP n * (key / CAP n))
            else none
          else none) with
    | some res => some res
    | none =>
        scanNext (CAP n) bs (fun j k => next n (sub j) k)
          (16 - (key / CAP n + 1)) (key / CAP n + 1)

/-- Operation `alloc`: at a leaf take the highest set bit and clear it; at
a cascade recurse into child `log2 bitset` and refresh that summary bit.
The `unwrap` of the child result panics if the child fails (`none`). -/
def alloc : (n : Nat) → BAState n → Option (Nat × BAState n)
  | _, .leaf w =>
    if w != 0 then some (log2 w, .leaf (set_bit w (log2 w) false))
    else none
  | n + 1, .node bs sub =>
    if bs != 0 then
      if h : log2 bs < 16 then
        match alloc n (sub ⟨log2 bs, h⟩) with
        | none => none
        | some (res, child) =>
            some (res + log2 bs * CAP n,
              .node (set_bit bs (log2 bs) (any n child))
                (Function.update sub ⟨log2 bs, h⟩ child))
      else none
    else none

/-- Operation `dealloc`: the leaf asserts the bit is currently allocated
(double frees panic; so does an out-of-range key, through the bit read);
the cascade delegates and then unconditionally sets its summary bit. -/
def dealloc : (n : Nat) → BAState n → Nat → Option (BAState n)
  | _, .leaf w, key =>
    if key < 16 then
      if get_bit w key then none
      else some (.leaf (set_bit w key true))
    else none
  | n + 1, .node bs sub, key =>
    if h : key / CAP n < 16 then
      match dealloc n (sub ⟨key / CAP n, h⟩) (key % CAP n) with
      | none => none
      | some child =>
          some (.node (set_bit bs (key / CAP n) true)
            (Function.update sub ⟨key / CAP n, h⟩ child))
    else none

/-- Loop body of `for_range`: apply `f` to each child in the inclusive
index range, clipping the global range to each child, and refresh the
summary bit from the child's `any`; `fuel` counts remaining iterations. -/
def forRangeGo (n : Nat) (f : BAState n → Nat → Nat → Option (BAState n))
    (start e : Nat) :
    Nat → Nat → Nat → (Fin 16 → BAState n) →
      Option (Nat × (Fin 16 → BAState n))
  | 0, _, bs, sub => some (bs, sub)
  | fuel + 1, i, bs, sub =>
    if h : i < 16 then
      let b := if start / CAP n = i then start % CAP n else 0
      let en := if e / CAP n = i then e % CAP n else CAP n
      match f (sub ⟨i, h⟩) b en with
      | none => none
      | some child =>
          forRangeGo n f start e fuel (i + 1) (set_bit bs i (any n child))
            (Function.update sub ⟨i, h⟩ child)
    else none

/-- Cascade `for_range`: assert `start <= end <= CAP`, then run the loop
over child indices `start / T::CAP ..= (end - 1) / T::CAP`.  When
`end = 0` the subtraction `end - 1` underflows `usize`, a panic. -/
def for_range {n : Nat} (bs : Nat) (sub : Fin 16 → BAState n) (start e : Nat)
    (f : BAState n → Nat → Nat → Option (BAState n)) :
    Option (BAState (n + 1)) :=
  if start ≤ e ∧ e ≤ CAP n * 16 then
    if e = 0 then none
    else
      match forRangeGo n f start e ((e - 1) / CAP n + 1 - start / CAP n)
          (start / CAP n) bs sub with
      | none => none
      | some (bs2, sub2) => some (.node bs2 sub2)
  else none

/-- Operation `insert`: mark the half-open range `[s, e)` free.  At the
leaf the range assertion of the modelled `bit_field` range write applies. -/
def insert : (n : Nat) → BAState n → Nat → Nat → Option (BAState n)
  | _, .leaf w, s, e =>
    if s ≤ e ∧ e ≤ 16 then
      some (.leaf (set_bits w s e (get_bits (2 ^ 16 - 1) s e)))
    else none
  | n + 1, .node bs sub, s, e => for_range bs sub s e (insert n)

/-- Operation `remove`: mark the half-open range `[s, e)` allocated. -/
def remove : (n : Nat) → BAState n → Nat → Nat → Option (BAState n)
  | _, .leaf w, s, e =>
    if s ≤ e ∧ e ≤ 16 then some (.leaf (set_bits w s e 0))
    else none
  | n + 1, .node bs sub, s, e => for_range bs sub s e (remove n)

theorem lt_shift_self (x a : Nat) : x < (x >>> a + 1) <<< a := by
  rw [Nat.shiftRight_eq_div_pow, Nat.shiftLeft_eq]
  have h := Nat.div_add_mod x (2 ^ a)
  have hm : x % 2 ^ a < 2 ^ a := Nat.mod_lt _ (Nat.pos_pow_of_pos _ (by norm_num))
  have hr : (x / 2 ^ a + 1) * 2 ^ a = 2 ^ a * (x / 2 ^ a) + 2 ^ a := by ring
  omega

/-- Loop of `find_contiguous`: `base` is the candidate start, `offset` the
scan cursor.  A gap reported by `next` re-anchors `base` to the first
aligned position after the gap. -/
def fcLoop (n : Nat) (s : BAState n) (capacity size a : Nat)
    (base offset : Nat) : Option Nat :=
  if h : offset < capacity then
    match next n s offset with
    | none => none
    | some nx =>
      if hne : nx ≠ offset then
        if hlt : offset < nx then
          fcLoop n s capacity size a (((nx - 1) >>> a + 1) <<< a)
            (((nx - 1) >>> a + 1) <<< a)
        else none
      else if offset + 1 - base = size then some base
      else fcLoop n s capacity size a base (offset + 1)
  else none
termination_by capacity - offset
decreasing_by
  · have := lt_shift_self (nx - 1) a
    omega
  · omega

/-- Shared `find_contiguous` search over any allocator.  The outer
`Option` models the panic of the guard's `1usize << align_log2`, whose
shift amount overflows for `align_log2 ≥ 64` (usize is 64 bits on the
x86_64 target of the `bsr` path).  On every capacity a `usize` can hold
we have `capacity < 2 ^ 64 ≤ 2 ^ align_log2`, so that panic fires exactly
when `64 ≤ align_log2 ∧ capacity < 2 ^ align_log2`, the condition used
here; capacities beyond `usize` exist only in this unbounded model. -/
def find_contiguous (n : Nat) (s : BAState n) (capacity size a : Nat) :
    Option (Option Nat) :=
  if 64 ≤ a ∧ capacity < 1 <<< a then none
  else if capacity < 1 <<< a ∨ any n s = false then some none
  else some (fcLoop n s capacity size a 0 0)

/-- Operation `alloc_contiguous`: search, then reserve the found run with
`remove`.  The result pairs the Rust return value with the final state;
the Rust `None` return leaves the state untouched, and a panic of the
search (or of `remove`) propagates as the outer `none`. -/
def alloc_contiguous (n : Nat) (s : BAState n) (size a : Nat) :
    Option (Option Nat × BAState n) :=
  match find_contiguous n s (CAP n) size a with
  | none => none
  | some (some base) =>
      (remove n s base (base + size)).map (fun t => (some base, t))
  | some none => some (none, s)

/-- Structural invariant: every word is 16 bits wide and every cascade
summary bit `i` equals `children[i].any()`. -/
def inv : (n : Nat) → BAState n → Prop
  | _, .leaf w => w < 2 ^ 16
  | n + 1, .node bs sub =>
    bs < 2 ^ 16 ∧ (∀ i : Fin 16, get_bit bs i.val = any n (sub i)) ∧
      ∀ i : Fin 16, inv n (sub i)

/-- States reachable from the default state by successful operations
(operations whose preconditions hold, i.e. that do not panic). -/
inductive Reachable : (n : Nat) → BAState n → Prop where
  | init : ∀ n, Reachable n (DEFAULT n)
  | step_alloc : ∀ n s k s2, Reachable n s →
      alloc n s = some (k, s2) → Reachable n s2
  | step_alloc_contiguous : ∀ n s size a r s2, Reachable n s →
      alloc_contiguous n s size a = some (r, s2) → Reachable n s2
  | step_dealloc : ∀ n s key s2, Reachable n s →
      dealloc n s key = some s2 → Reachable n s2
  | step_insert : ∀ n s a b s2, Reachable n s →
      insert n s a b = some s2 → Reachable n s2
  | step_remove : ∀ n s a b s2, Reachable n s →
      remove n s a b = some s2 → Reachable n s2

theorem CAP_pos (n : Nat) : 0 < CAP n := by
  induction n with
  | zero => simp [CAP]
  | succ n ih => simp [CAP]; omega

theorem test_node_decomp (n : Nat) (bs : Nat) (sub : Fin 16 → BAState n)
    (key : Nat) (h : key / CAP n < 16) :
    test (n + 1) (.node bs sub) key = test n (sub ⟨key / CAP n, h⟩) (key % CAP n) := by
  simp only [test, dif_pos h]

theorem test_node_ge (n : Nat) (bs : Nat) (sub : Fin 16 → BAState n)
    (key : Nat) (h : ¬ key / CAP n < 16) :
    test (n + 1) (.node bs sub) key = false := by
  simp only [test, dif_neg h]

theorem test_node (n : Nat) (bs : Nat) (sub : Fin 16 → BAState n) (i : Fin 16)
    (x : Nat) (hx : x < CAP n) :
    test (n + 1) (.node bs sub) (CAP n * i.val + x) = test n (sub i) x := by
  have hC := CAP_pos n
  have hdiv : (CAP n * i.val + x) / CAP n = i.val := by
    rw [Nat.mul_add_div hC]
    have h0 : x / CAP n = 0 := Nat.div_eq_of_lt hx
    omega
  have hmod : (CAP n * i.val + x) % CAP n = x := by
    rw [Nat.mul_add_mod]
    exact Nat.mod_eq_of_lt hx
  rw [test_node_decomp n bs sub _ (by rw [hdiv]; exact i.isLt)]
  simp only [hdiv, hmod, Fin.eta]

theorem next16go_spec (w : Nat) : ∀ (fuel i : Nat),
    (∀ j, next16go w fuel i = some j →
      i ≤ j ∧ j < i + fuel ∧ w.testBit j = true ∧
        ∀ k, i ≤ k → k < j → w.testBit k = false) ∧
    (next16go w fuel i = none →
      ∀ k, i ≤ k → k < i + fuel → w.testBit k = false) := by
  intro fuel
  induction fuel with
  | zero =>
    intro i
    refine ⟨fun j h => ?_, fun _ k hk1 hk2 => ?_⟩
    · simp [next16go] at h
    · omega
  | succ fuel ih =>
    intro i
    by_cases hb : get_bit w i = true
    · refine ⟨fun j h => ?_, fun h => ?_⟩
      · have hj : j = i := by
          rw [next16go, if_pos hb] at h
          exact (Option.some_inj.1 h).symm
        subst hj
        exact ⟨le_refl _, by omega, hb, fun k hk1 hk2 => by omega⟩
      · rw [next16go, if_pos hb] at h
        exact Option.noConfusion h
    · have hb2 : w.testBit i = false := by
        unfold get_bit at hb
        simpa using hb
      refine ⟨fun j h => ?_, fun h k hk1 hk2 => ?_⟩
      · rw [next16go, if_neg hb] at h
        obtain ⟨h3, h4, h5, h6⟩ := (ih (i + 1)).1 j h
        refine ⟨by omega, by omega, h5, fun k hk1 hk2 => ?_⟩
        rcases Nat.eq_or_lt_of_le hk1 with he | hl
        · rw [← he]
          exact hb2
        · exact h6 k (by omega) hk2
      · rw [next16go, if_neg hb] at h
        rcases Nat.eq_or_lt_of_le hk1 with he | hl
        · rw [← he]
          exact hb2
        · exact (ih (i + 1)).2 h k (by omega) (by omega)

theorem any_iff : ∀ (n : Nat) (s : BAState n), inv n s →
    (any n s = true ↔ ∃ k, k < CAP n ∧ test n s k = true) := by
  intro n
  induction n with
  | zero =>
    intro s h
    cases s with
    | leaf w =>
      have hw : w < 2 ^ 16 := h
      constructor
      · intro ha
        have hw0 : w ≠ 0 := by simpa [any] using ha
        refine ⟨Nat.log2 w, log2_lt_16 w hw0 hw, ?_⟩
        simpa [test, get_bit] using testBit_log2_self w hw0
      · rintro ⟨k, hk, ht⟩
        have ht2 : w.testBit k = true := by simpa [test, get_bit] using ht
        have hw0 : w ≠ 0 := by
          intro h0
          rw [h0] at ht2
          simp at ht2
        simpa [any] using hw0
  | succ n ih =>
    intro s h
    cases s with
    | node bs sub =>
      obtain ⟨h1, h2, h3⟩ := h
      have hC := CAP_pos n
      constructor
      · intro ha
        have hb0 : bs ≠ 0 := by simpa [any] using ha
        have hi : Nat.log2 bs < 16 := log2_lt_16 bs hb0 h1
        have hany : any n (sub ⟨Nat.log2 bs, hi⟩) = true := by
          rw [← h2 ⟨Nat.log2 bs, hi⟩]
          simpa [get_bit] using testBit_log2_self bs hb0
        obtain ⟨k, hk, ht⟩ := (ih _ (h3 _)).1 hany
        refine ⟨CAP n * Nat.log2 bs + k, ?_, ?_⟩
        · have : CAP n * Nat.log2 bs + k < CAP n * (Nat.log2 bs + 1) := by
            have := Nat.mul_le_mul_left (CAP n) hi
            nlinarith
          calc CAP n * Nat.log2 bs + k < CAP n * (Nat.log2 bs + 1) := this
          _ ≤ CAP n * 16 := Nat.mul_le_mul_left _ (by omega)
          _ = CAP (n + 1) := rfl
        · rw [test_node n bs sub ⟨Nat.log2 bs, hi⟩ k hk]
          exact ht
      · rintro ⟨k, hk, ht⟩
        have hd : k / CAP n < 16 := by
          rw [Nat.div_lt_iff_lt_mul hC]
          calc k < CAP (n + 1) := hk
          _ = 16 * CAP n := by simp [CAP]; ring
        rw [test_node_decomp n bs sub k hd] at ht
        have hany : any n (sub ⟨k / CAP n, hd⟩) = true := by
          apply (ih _ (h3 _)).2
          exact ⟨k % CAP n, Nat.mod_lt _ hC, ht⟩
        have := h2 ⟨k / CAP n, hd⟩
        rw [hany] at this
        have hb0 : bs ≠ 0 := by
          intro h0
          rw [h0] at this
          simp [get_bit] at this
        simpa [any] using hb0

theorem div_eq_of_between (C k i : Nat) (hC : 0 < C) (h1 : C * i ≤ k)
    (h2 : k < C * (i + 1)) : k / C = i := by
  have ha : i ≤ k / C := (Nat.le_div_iff_mul_le hC).2 (by rw [mul_comm] at h1; exact h1)
  have hb : k / C < i + 1 := (Nat.div_lt_iff_lt_mul hC).2 (by rw [mul_comm] at h2; exact h2)
  omega

theorem block_empty (n : Nat) (bs : Nat) (sub : Fin 16 → BAState n) (i : Fin 16)
    (hemp : ∀ y, y < CAP n → test n (sub i) y = false) :
    ∀ k, CAP n * i.val ≤ k → k < CAP n * (i.val + 1) →
      test (n + 1) (.node bs sub) k = false := by
  intro k hk1 hk2
  have hC := CAP_pos n
  have hx : k - CAP n * i.val < CAP n := by
    have : CAP n * (i.val + 1) = CAP n * i.val + CAP n := by ring
    omega
  have hke : k = CAP n * i.val + (k - CAP n * i.val) := by omega
  rw [hke, test_node n bs sub i _ hx]
  exact hemp _ hx

/-- Specification of `next` at one state: any returned index is the least
free index at or after the key, and `none` means there is no free index
at or after it. -/
def nextSpecAt (n : Nat) (t : BAState n) : Prop :=
  ∀ key : Nat,
    (∀ j, next n t key = some j →
      key ≤ j ∧ j < CAP n ∧ test n t j = true ∧
        ∀ k, key ≤ k → k < j → test n t k = false) ∧
    (next n t key = none → ∀ k, key ≤ k → k < CAP n → test n t k = false)

theorem scanNext_spec (n : Nat) (bs : Nat) (sub : Fin 16 → BAState n)
    (hbs : ∀ i : Fin 16, get_bit bs i.val = any n (sub i))
    (hinv : ∀ i : Fin 16, inv n (sub i))
    (hchild : ∀ i : Fin 16, nextSpecAt n (sub i)) :
    ∀ (fuel i : Nat), 16 ≤ i + fuel →
      (∀ j, scanNext (CAP n) bs (fun a b => next n (sub a) b) fuel i = some j →
        CAP n * i ≤ j ∧ j < CAP n * 16 ∧
          test (n + 1) (.node bs sub) j = true ∧
          ∀ k, CAP n * i ≤ k → k < j → test (n + 1) (.node bs sub) k = false) ∧
      (scanNext (CAP n) bs (fun a b => next n (sub a) b) fuel i = none →
        ∀ k, CAP n * i ≤ k → k < CAP n * 16 →
          test (n + 1) (.node bs sub) k = false) := by
  intro fuel
  induction fuel with
  | zero =>
    intro i h16
    refine ⟨fun j h => by simp [scanNext] at h, fun _ k hk1 hk2 => ?_⟩
    have : CAP n * 16 ≤ CAP n * i := Nat.mul_le_mul_left _ (by omega)
    omega
  | succ fuel ih =>
    intro i h16
    by_cases hi : i < 16
    · have hskip :
          (∀ y, y < CAP n → test n (sub ⟨i, hi⟩) y = false) →
          scanNext (CAP n) bs (fun a b => next n (sub a) b) (fuel + 1) i =
            scanNext (CAP n) bs (fun a b => next n (sub a) b) fuel (i + 1) →
          (∀ j, scanNext (CAP n) bs (fun a b => next n (sub a) b) (fuel + 1) i = some j →
            CAP n * i ≤ j ∧ j < CAP n * 16 ∧
              test (n + 1) (.node bs sub) j = true ∧
              ∀ k, CAP n * i ≤ k → k < j → test (n + 1) (.node bs sub) k = false) ∧
          (scanNext (CAP n) bs (fun a b => next n (sub a) b) (fuel + 1) i = none →
            ∀ k, CAP n * i ≤ k → k < CAP n * 16 →
              test (n + 1) (.node bs sub) k = false) := by
        intro hempty hunf
        obtain ⟨ihs, ihn⟩ := ih (i + 1) (by omega)
        have hblock := block_empty n bs sub ⟨i, hi⟩ hempty
        have hmul : CAP n * i ≤ CAP n * (i + 1) := Nat.mul_le_mul_left _ (by omega)
        constructor
        · intro j hj
          rw [hunf] at hj
          obtain ⟨g1, g2, g3, g4⟩ := ihs j hj
          refine ⟨by omega, g2, g3, fun k hk1 hk2 => ?_⟩
          rcases Nat.lt_or_ge k (CAP n * (i + 1)) with hc | hc
          · exact hblock k hk1 hc
          · exact g4 k hc hk2
        · intro hj k hk1 hk2
          rw [hunf] at hj
          rcases Nat.lt_or_ge k (CAP n * (i + 1)) with hc | hc
          · exact hblock k hk1 hc
          · exact ihn hj k hc hk2
      by_cases hgb : get_bit bs i = true
      · rcases hnx : next n (sub ⟨i, hi⟩) 0 with _ | x
        · have hempty : ∀ y, y < CAP n → test n (sub ⟨i, hi⟩) y = false :=
            fun y hy => (hchild ⟨i, hi⟩ 0).2 hnx y (Nat.zero_le y) hy
          exact hskip hempty (by simp only [scanNext, dif_pos hi, if_pos hgb, hnx])
        · obtain ⟨g1, g2, g3, g4⟩ := (hchild ⟨i, hi⟩ 0).1 x hnx
          have hunf : scanNext (CAP n) bs (fun a b => next n (sub a) b) (fuel + 1) i =
              some (x + CAP n * i) := by
            simp only [scanNext, dif_pos hi, if_pos hgb, hnx]
          refine ⟨fun j hj => ?_, fun hj => ?_⟩
          · rw [hunf] at hj
            have hje : j = x + CAP n * i := (Option.some_inj.1 hj).symm
            subst hje
            have h15 : CAP n * i ≤ CAP n * 15 := Nat.mul_le_mul_left _ (by omega)
            have h16e : CAP n * 16 = CAP n * 15 + CAP n := by ring
            refine ⟨by omega, by omega, ?_, ?_⟩
            · have he : x + CAP n * i = CAP n * i + x := by ring
              rw [he, test_node n bs sub ⟨i, hi⟩ x g2]
              exact g3
            · intro k hk1 hk2
              have hx : k - CAP n * i < x := by omega
              have hke : k = CAP n * i + (k - CAP n * i) := by omega
              rw [hke, test_node n bs sub ⟨i, hi⟩ _ (by omega)]
              exact g4 _ (Nat.zero_le _) hx
          · rw [hunf] at hj
            exact Option.noConfusion hj
      · have hany : any n (sub ⟨i, hi⟩) = false := by
          have := hbs ⟨i, hi⟩
          rw [← this]
          simpa using hgb
        have hempty : ∀ y, y < CAP n → test n (sub ⟨i, hi⟩) y = false := by
          intro y hy
          by_contra hc
          have ht : test n (sub ⟨i, hi⟩) y = true := by
            cases hv : test n (sub ⟨i, hi⟩) y
            · exact absurd hv hc
            · rfl
          have := (any_iff n (sub ⟨i, hi⟩) (hinv ⟨i, hi⟩)).2 ⟨y, hy, ht⟩
          rw [hany] at this
          exact Bool.noConfusion this
        exact hskip hempty (by simp only [scanNext, dif_pos hi, if_neg hgb])
    · refine ⟨fun j h => ?_, fun _ k hk1 hk2 => ?_⟩
      · rw [scanNext, dif_neg hi] at h
        exact Option.noConfusion h
      · have : CAP n * 16 ≤ CAP n * i := Nat.mul_le_mul_left _ (by omega)
        omega

theorem next_spec : ∀ (n : Nat) (s : BAState n), inv n s → nextSpecAt n s := by
  intro n
  induction n with
  | zero =>
    intro s h
    cases s with
    | leaf w =>
      intro key
      constructor
      · intro j hj
        rcases le_or_lt key 16 with hk | hk
        · have hg : next16go w (16 - key) key = some j := hj
          obtain ⟨g1, g2, g3, g4⟩ := (next16go_spec w (16 - key) key).1 j hg
          refine ⟨g1, ?_, ?_, fun k hk1 hk2 => ?_⟩
          · show j < 16
            omega
          · simpa [test, get_bit] using g3
          · simpa [test, get_bit] using g4 k hk1 hk2
        · exfalso
          have hg : next16go w (16 - key) key = some j := hj
          have h0 : 16 - key = 0 := by omega
          rw [h0] at hg
          simp [next16go] at hg
      · intro hj k hk1 hk2
        have hg : next16go w (16 - key) key = none := hj
        have hc : k < key + (16 - key) := by
          have hk16 : k < 16 := hk2
          omega
        simpa [test, get_bit] using (next16go_spec w (16 - key) key).2 hg k hk1 hc
  | succ n ih =>
    intro s h
    cases s with
    | node bs sub =>
      obtain ⟨h1, h2, h3⟩ := h
      have hC := CAP_pos n
      intro key
      have hdm := Nat.div_add_mod key (CAP n)
      have hml : key % CAP n < CAP n := Nat.mod_lt _ hC
      have hscan := scanNext_spec n bs sub h2 h3 (fun i => ih (sub i) (h3 i))
        (16 - (key / CAP n + 1)) (key / CAP n + 1) (by omega)
      have hsucc : CAP n * (key / CAP n + 1) = CAP n * (key / CAP n) + CAP n := by
        ring
      by_cases hind : key / CAP n < 16
      · by_cases hgb : get_bit bs (key / CAP n) = true
        · rcases hcn : next n (sub ⟨key / CAP n, hind⟩)
              (key - CAP n * (key / CAP n)) with _ | x
          · have hunf : next (n + 1) (.node bs sub) key =
                scanNext (CAP n) bs (fun a b => next n (sub a) b)
                  (16 - (key / CAP n + 1)) (key / CAP n + 1) := by
              simp only [next, dif_pos hind, if_pos hgb, hcn, Option.map_none']
            have hemp : ∀ y, key % CAP n ≤ y → y < CAP n →
                test n (sub ⟨key / CAP n, hind⟩) y = false := by
              have hkm : key - CAP n * (key / CAP n) = key % CAP n := by omega
              rw [hkm] at hcn
              exact fun y hy1 hy2 =>
                (ih (sub _) (h3 _) (key % CAP n)).2 hcn y hy1 hy2
            have hblk : ∀ k, key ≤ k → k < CAP n * (key / CAP n + 1) →
                test (n + 1) (.node bs sub) k = false := by
              intro k hk1 hk2
              have hkd : k - CAP n * (key / CAP n) < CAP n := by omega
              have hke : k = CAP n * (key / CAP n) +
                  (k - CAP n * (key / CAP n)) := by omega
              rw [hke, test_node n bs sub ⟨key / CAP n, hind⟩ _ hkd]
              exact hemp _ (by omega) hkd
            constructor
            · intro j hj
              rw [hunf] at hj
              obtain ⟨g1, g2, g3, g4⟩ := hscan.1 j hj
              refine ⟨by omega, ?_, g3, fun k hk1 hk2 => ?_⟩
              · show j < CAP n * 16
                exact g2
              · rcases Nat.lt_or_ge k (CAP n * (key / CAP n + 1)) with hc | hc
                · exact hblk k hk1 hc
                · exact g4 k hc hk2
            · intro hj k hk1 hk2
              rw [hunf] at hj
              have hk2b : k < CAP n * 16 := hk2
              rcases Nat.lt_or_ge k (CAP n * (key / CAP n + 1)) with hc | hc
              · exact hblk k hk1 hc
              · exact hscan.2 hj k hc hk2b
          · have hkm : key - CAP n * (key / CAP n) = key % CAP n := by omega
            have hcn2 := hcn
            rw [hkm] at hcn2
            obtain ⟨g1, g2, g3, g4⟩ := (ih (sub _) (h3 _) (key % CAP n)).1 x hcn2
            have hunf : next (n + 1) (.node bs sub) key =
                some (x + CAP n * (key / CAP n)) := by
              simp only [next, dif_pos hind, if_pos hgb, hcn, Option.map_some']
            have h15 : CAP n * (key / CAP n) ≤ CAP n * 15 :=
              Nat.mul_le_mul_left _ (by omega)
            have h16e : CAP n * 16 = CAP n * 15 + CAP n := by ring
            constructor
            · intro j hj
              rw [hunf] at hj
              have hje : j = x + CAP n * (key / CAP n) :=
                (Option.some_inj.1 hj).symm
              subst hje
              refine ⟨by omega, ?_, ?_, fun k hk1 hk2 => ?_⟩
              · show x + CAP n * (key / CAP n) < CAP n * 16
                omega
              · have he : x + CAP n * (key / CAP n) =
                    CAP n * (key / CAP n) + x := by ring
                rw [he, test_node n bs sub ⟨key / CAP n, hind⟩ x g2]
                exact g3
              · have hkd : k - CAP n * (key / CAP n) < x := by omega
                have hke : k = CAP n * (key / CAP n) +
                    (k - CAP n * (key / CAP n)) := by omega
                rw [hke, test_node n bs sub ⟨key / CAP n, hind⟩ _ (by omega)]
                exact g4 _ (by omega) hkd
            · intro hj
              rw [hunf] at hj
              exact Option.noConfusion hj
        · have hany : any n (sub ⟨key / CAP n, hind⟩) = false := by
            have := h2 ⟨key / CAP n, hind⟩
            rw [← this]
            simpa using hgb
          have hemp : ∀ y, y < CAP n →
              test n (sub ⟨key / CAP n, hind⟩) y = false := by
            intro y hy
            by_contra hc
            have ht : test n (sub ⟨key / CAP n, hind⟩) y = true := by
              cases hv : test n (sub ⟨key / CAP n, hind⟩) y
              · exact absurd hv hc
              · rfl
            have := (any_iff n (sub ⟨key / CAP n, hind⟩)
              (h3 ⟨key / CAP n, hind⟩)).2 ⟨y, hy, ht⟩
            rw [hany] at this
            exact Bool.noConfusion this
          have hunf : next (n + 1) (.node bs sub) key =
              scanNext (CAP n) bs (fun a b => next n (sub a) b)
                (16 - (key / CAP n + 1)) (key / CAP n + 1) := by
            simp only [next, dif_pos hind, if_neg hgb]
          have hblk : ∀ k, key ≤ k → k < CAP n * (key / CAP n + 1) →
              test (n + 1) (.node bs sub) k = false := by
            intro k hk1 hk2
            have hkd : k - CAP n * (key / CAP n) < CAP n := by omega
            have hke : k = CAP n * (key / CAP n) +
                (k - CAP n * (key / CAP n)) := by omega
            rw [hke, test_node n bs sub ⟨key / CAP n, hind⟩ _ hkd]
            exact hemp _ hkd
          constructor
          · intro j hj
            rw [hunf] at hj
            obtain ⟨g1, g2, g3, g4⟩ := hscan.1 j hj
            refine ⟨by omega, ?_, g3, fun k hk1 hk2 => ?_⟩
            · show j < CAP n * 16
              exact g2
            · rcases Nat.lt_or_ge k (CAP n * (key / CAP n + 1)) with hc | hc
              · exact hblk k hk1 hc
              · exact g4 k hc hk2
          · intro hj k hk1 hk2
            rw [hunf] at hj
            have hk2b : k < CAP n * 16 := hk2
            rcases Nat.lt_or_ge k (CAP n * (key / CAP n + 1)) with hc | hc
            · exact hblk k hk1 hc
            · exact hscan.2 hj k hc hk2b
      · have hunf : next (n + 1) (.node bs sub) key =
            scanNext (CAP n) bs (fun a b => next n (sub a) b)
              (16 - (key / CAP n + 1)) (key / CAP n + 1) := by
          simp only [next, dif_neg hind]
        have hblk : ∀ k, key ≤ k → k < CAP n * (key / CAP n + 1) →
            test (n + 1) (.node bs sub) k = false := by
          intro k hk1 hk2
          have hkd : k / CAP n = key / CAP n :=
            div_eq_of_between (CAP n) k (key / CAP n) hC (by omega) hk2
          apply test_node_ge
          omega
        constructor
        · intro j hj
          rw [hunf] at hj
          obtain ⟨g1, g2, g3, g4⟩ := hscan.1 j hj
          refine ⟨by omega, ?_, g3, fun k hk1 hk2 => ?_⟩
          · show j < CAP n * 16
            exact g2
          · rcases Nat.lt_or_ge k (CAP n * (key / CAP n + 1)) with hc | hc
            · exact hblk k hk1 hc
            · exact g4 k hc hk2
        · intro hj k hk1 hk2
          rw [hunf] at hj
          have hk2b : k < CAP n * 16 := hk2
          rcases Nat.lt_or_ge k (CAP n * (key / CAP n + 1)) with hc | hc
          · exact hblk k hk1 hc
          · exact hscan.2 hj k hc hk2b

/-- Claim C9: `next` is total at every nesting level — it is a total
function in this embedding (no `Option`-modelled panic in its definition),
and for every key at or beyond the capacity it returns `none`, on the leaf
and on every composite. -/
theorem C9_next_total : ∀ (n : Nat) (s : BAState n) (key : Nat),
    CAP n ≤ key → next n s key = none := by
  intro n
  induction n with
  | zero =>
    intro s key hk
    cases s with
    | leaf w =>
      show next16go w (16 - key) key = none
      have h16 : (16 : Nat) ≤ key := hk
      have h0 : 16 - key = 0 := by omega
      rw [h0]
      rfl
  | succ n ih =>
    intro s key hk
    cases s with
    | node bs sub =>
      have hC := CAP_pos n
      have h16 : CAP n * 16 ≤ key := hk
      have hind : ¬ key / CAP n < 16 := by
        have h16b : 16 * CAP n ≤ key := by
          rw [Nat.mul_comm]
          exact h16
        have : 16 ≤ key / CAP n := (Nat.le_div_iff_mul_le hC).2 h16b
        omega
      have hfuel : 16 - (key / CAP n + 1) = 0 := by omega
      simp only [next, dif_neg hind, hfuel]
      rfl

theorem C9_next_total_witness :
    CAP 0 ≤ 16 ∧ next 0 (.leaf 65535) 16 = none ∧
      CAP 1 ≤ 256 ∧ next 1 (DEFAULT 1) 300 = none :=
  ⟨by decide, C9_next_total 0 (.leaf 65535) 16 (by decide),
    by decide, C9_next_total 1 (DEFAULT 1) 300 (by decide)⟩

/-- Claim C3: for every allocator satisfying the structural invariant and
every key below the capacity, `next key` returns `some j` only for the
smallest free index `j ≥ key`, and returns `none` exactly when no free
index at or beyond `key` exists. -/
theorem C3_next_least (n : Nat) (s : BAState n) (key : Nat) (h : inv n s)
    (hkey : key < CAP n) :
    (∀ j, next n s key = some j →
      key ≤ j ∧ j < CAP n ∧ test n s j = true ∧
        ∀ k, key ≤ k → k < j → test n s k = false) ∧
    (next n s key = none ↔
      ∀ k, key ≤ k → k < CAP n → test n s k = false) := by
  have hs := next_spec n s h key
  refine ⟨hs.1, ?_, ?_⟩
  · exact hs.2
  · intro hall
    cases hnx : next n s key with
    | none => rfl
    | some j =>
      obtain ⟨g1, g2, g3, _⟩ := hs.1 j hnx
      rw [hall j g1 g2] at g3
      exact Bool.noConfusion g3

theorem C3_next_least_witness :
    inv 0 (.leaf 4) ∧ 1 < CAP 0 ∧
      (next 0 (.leaf 4) 1 = none ↔
        ∀ k, 1 ≤ k → k < CAP 0 → test 0 (.leaf 4) k = false) := by
  have h : inv 0 (BAState.leaf 4) := by
    show (4 : Nat) < 2 ^ 16
    norm_num
  exact ⟨h, by decide, (C3_next_least 0 (.leaf 4) 1 h (by decide)).2⟩

theorem dealloc_spec : ∀ (n : Nat) (s : BAState n) (key : Nat), inv n s →
    key < CAP n →
    (test n s key = false →
      ∃ s2, dealloc n s key = some s2 ∧ inv n s2 ∧ any n s2 = true ∧
        ∀ k, k < CAP n → test n s2 k = (test n s k || decide (k = key))) ∧
    (test n s key = true → dealloc n s key = none) := by
  intro n
  induction n with
  | zero =>
    intro s key h hkey
    cases s with
    | leaf w =>
      have hw : w < 2 ^ 16 := h
      have hk16 : key < 16 := hkey
      constructor
      · intro ht
        have htb : w.testBit key = false := by simpa [test, get_bit] using ht
        refine ⟨.leaf (set_bit w key true), ?_, ?_, ?_, ?_⟩
        · simp [dealloc, hk16, get_bit, htb]
        · exact set_bit_lt w key true hw hk16
        · have hbit : (set_bit w key true).testBit key = true := by
            rw [testBit_set_bit w key key true hw hk16]
            simp
          have hne : set_bit w key true ≠ 0 := by
            intro h0
            rw [h0] at hbit
            simp at hbit
          simpa [any] using hne
        · intro k hk
          show (set_bit w key true).testBit k = (w.testBit k || decide (k = key))
          rw [testBit_set_bit w key k true hw hk16]
          by_cases he : k = key <;> simp [he]
      · intro ht
        have htb : get_bit w key = true := by simpa [test] using ht
        simp [dealloc, hk16, htb]
  | succ n ih =>
    intro s key h hkey
    cases s with
    | node bs sub =>
      obtain ⟨h1, h2, h3⟩ := h
      have hC := CAP_pos n
      have hdm := Nat.div_add_mod key (CAP n)
      have hml : key % CAP n < CAP n := Nat.mod_lt _ hC
      have hind : key / CAP n < 16 := by
        rw [Nat.div_lt_iff_lt_mul hC]
        have hcm : CAP n * 16 = 16 * CAP n := by ring
        have : key < CAP n * 16 := hkey
        omega
      obtain ⟨ihd, ihf⟩ := ih (sub ⟨key / CAP n, hind⟩) (key % CAP n) (h3 _) hml
      constructor
      · intro ht
        rw [test_node_decomp n bs sub key hind] at ht
        obtain ⟨c2, hc2, hinv2, hany2, hpt⟩ := ihd ht
        refine ⟨.node (set_bit bs (key / CAP n) true)
          (Function.update sub ⟨key / CAP n, hind⟩ c2), ?_, ?_, ?_, ?_⟩
        · simp only [dealloc, dif_pos hind, hc2]
        · refine ⟨set_bit_lt bs _ true h1 hind, ?_, ?_⟩
          · intro i
            show (set_bit bs (key / CAP n) true).testBit i.val = _
            rw [testBit_set_bit bs _ i.val true h1 hind]
            by_cases he : i.val = key / CAP n
            · rw [if_pos he]
              have hieq : i = ⟨key / CAP n, hind⟩ := Fin.ext he
              rw [hieq, Function.update_same]
              exact hany2.symm
            · rw [if_neg he]
              have hine : i ≠ ⟨key / CAP n, hind⟩ := by
                intro hh
                exact he (by rw [hh])
              rw [Function.update_noteq hine]
              exact h2 i
          · intro i
            by_cases hieq : i = ⟨key / CAP n, hind⟩
            · rw [hieq, Function.update_same]
              exact hinv2
            · rw [Function.update_noteq hieq]
              exact h3 i
        · have hbit : (set_bit bs (key / CAP n) true).testBit (key / CAP n) = true := by
            rw [testBit_set_bit bs _ _ true h1 hind]
            simp
          have hne : set_bit bs (key / CAP n) true ≠ 0 := by
            intro h0
            rw [h0] at hbit
            simp at hbit
          simpa [any] using hne
        · intro k hk
          have hdmk := Nat.div_add_mod k (CAP n)
          have hmlk : k % CAP n < CAP n := Nat.mod_lt _ hC
          have hkind : k / CAP n < 16 := by
            rw [Nat.div_lt_iff_lt_mul hC]
            have hcm : CAP n * 16 = 16 * CAP n := by ring
            have : k < CAP n * 16 := hk
            omega
          rw [test_node_decomp n _ _ k hkind, test_node_decomp n bs sub k hkind]
          by_cases he : k / CAP n = key / CAP n
          · have hfe : (⟨k / CAP n, hkind⟩ : Fin 16) = ⟨key / CAP n, hind⟩ :=
              Fin.ext he
            rw [hfe, Function.update_same, hpt (k % CAP n) hmlk]
            have hdmk2 : CAP n * (key / CAP n) + k % CAP n = k := by
              rw [← he]
              exact hdmk
            have hiff : (k % CAP n = key % CAP n) ↔ (k = key) := by omega
            by_cases hee : k = key
            · simp [hee, hiff]
            · have : ¬ (k % CAP n = key % CAP n) := fun hh => hee (hiff.1 hh)
              simp [hee, this]
          · have hfne : (⟨k / CAP n, hkind⟩ : Fin 16) ≠ ⟨key / CAP n, hind⟩ := by
              intro hh
              exact he (congrArg Fin.val hh)
            rw [Function.update_noteq hfne]
            have hkne : k ≠ key := by
              intro hkk
              rw [hkk] at he
              exact he rfl
            simp [hkne]
      · intro ht
        rw [test_node_decomp n bs sub key hind] at ht
        have hnone := ihf ht
        simp only [dealloc, dif_pos hind, hnone]

/-- Claim C6: deallocating a currently-allocated key below capacity
succeeds and makes `test key` true; on a composite the summary bit
`key / C` of the result is set; deallocating an already-free key
(double free) fails fast (`none`, the modelled panic). -/
theorem C6_dealloc (n : Nat) (s : BAState n) (key : Nat) (h : inv n s)
    (hkey : key < CAP n) :
    (test n s key = false →
      ∃ s2, dealloc n s key = some s2 ∧ test n s2 key = true) ∧
    (test n s key = true → dealloc n s key = none) ∧
    (∀ (m : Nat) (bs : Nat) (sub : Fin 16 → BAState m) (key2 : Nat)
        (s2 : BAState (m + 1)),
      dealloc (m + 1) (.node bs sub) key2 = some s2 →
      ∃ bs2 sub2, s2 = .node bs2 sub2 ∧ get_bit bs2 (key2 / CAP m) = true) := by
  obtain ⟨hfree, hdouble⟩ := dealloc_spec n s key h hkey
  refine ⟨?_, hdouble, ?_⟩
  · intro ht
    obtain ⟨s2, hs2, _, _, hpt⟩ := hfree ht
    refine ⟨s2, hs2, ?_⟩
    rw [hpt key hkey, ht]
    simp
  · intro m bs sub key2 s2 hsome
    by_cases hi : key2 / CAP m < 16
    · rcases hd : dealloc m (sub ⟨key2 / CAP m, hi⟩) (key2 % CAP m) with _ | c2
      · rw [dealloc.eq_def] at hsome
        simp only [dif_pos hi, hd] at hsome
        exact Option.noConfusion hsome
      · rw [dealloc.eq_def] at hsome
        simp only [dif_pos hi, hd] at hsome
        refine ⟨set_bit bs (key2 / CAP m) true,
          Function.update sub ⟨key2 / CAP m, hi⟩ c2,
          (Option.some_inj.1 hsome).symm, ?_⟩
        show (set_bit bs (key2 / CAP m) true).testBit (key2 / CAP m) = true
        rw [testBit_set_bit_true]
        simp
    · rw [dealloc.eq_def] at hsome
      simp only [dif_neg hi] at hsome
      exact Option.noConfusion hsome

theorem C6_dealloc_witness :
    ∃ s2, dealloc 0 (.leaf 0) 3 = some s2 ∧ test 0 s2 3 = true := by
  have h : inv 0 (BAState.leaf 0) := by
    show (0 : Nat) < 2 ^ 16
    norm_num
  exact (C6_dealloc 0 (.leaf 0) 3 h (by decide)).1 (by decide)

/-- Specification of a range-writing operation (`insert` writes `true`,
`remove` writes `false`): on a valid nonempty range it succeeds, keeps the
invariant and writes `v` exactly on the range. -/
def rangeWriteSpec (n : Nat) (f : BAState n → Nat → Nat → Option (BAState n))
    (v : Bool) : Prop :=
  ∀ (t : BAState n) (a b : Nat), inv n t → a ≤ b → b ≤ CAP n → 1 ≤ b →
    ∃ t2, f t a b = some t2 ∧ inv n t2 ∧
      ∀ k, k < CAP n → test n t2 k = (if a ≤ k ∧ k < b then v else test n t k)

theorem insert_leaf_spec : rangeWriteSpec 0 (insert 0) true := by
  intro t a b h hab hbcap _
  cases t with
  | leaf w =>
    have hw : w < 2 ^ 16 := h
    have hb16 : b ≤ 16 := hbcap
    refine ⟨.leaf (set_bits w a b (get_bits (2 ^ 16 - 1) a b)), ?_, ?_, ?_⟩
    · simp [insert, hab, hb16]
    · exact leaf_insert_lt w a b hw hab hb16
    · intro k hk
      show (set_bits w a b (get_bits (2 ^ 16 - 1) a b)).testBit k = _
      rw [testBit_leaf_insert w a b k hw hab hb16]
      by_cases hin : a ≤ k ∧ k < b <;> simp [hin, test, get_bit]

theorem remove_leaf_spec : rangeWriteSpec 0 (remove 0) false := by
  intro t a b h hab hbcap _
  cases t with
  | leaf w =>
    have hw : w < 2 ^ 16 := h
    have hb16 : b ≤ 16 := hbcap
    refine ⟨.leaf (set_bits w a b 0), ?_, ?_, ?_⟩
    · simp [remove, hab, hb16]
    · exact leaf_remove_lt w a b hw hab hb16
    · intro k hk
      show (set_bits w a b 0).testBit k = _
      rw [testBit_leaf_remove w a b k hw hab hb16]
      by_cases hin : a ≤ k ∧ k < b <;> simp [hin, test, get_bit]

theorem forRangeGo_spec (n : Nat)
    (f : BAState n → Nat → Nat → Option (BAState n)) (v : Bool)
    (hf : rangeWriteSpec n f v) (a b : Nat)
    (hab : a ≤ b) (hbcap : b ≤ CAP n * 16) (hb1 : 1 ≤ b) :
    ∀ (fuel : Nat), ∀ (i bs : Nat) (sub : Fin 16 → BAState n),
      fuel = (b - 1) / CAP n + 1 - i →
      a / CAP n ≤ i →
      bs < 2 ^ 16 →
      (∀ q : Fin 16, get_bit bs q.val = any n (sub q)) →
      (∀ q : Fin 16, inv n (sub q)) →
      ∃ bs2 sub2,
        forRangeGo n f a b fuel i bs sub = some (bs2, sub2) ∧
        bs2 < 2 ^ 16 ∧
        (∀ q : Fin 16, get_bit bs2 q.val = any n (sub2 q)) ∧
        (∀ q : Fin 16, inv n (sub2 q)) ∧
        (∀ q : Fin 16, q.val < i ∨ (b - 1) / CAP n < q.val → sub2 q = sub q) ∧
        (∀ q : Fin 16, i ≤ q.val → q.val ≤ (b - 1) / CAP n →
          ∀ x, x < CAP n →
          test n (sub2 q) x =
            (if a ≤ CAP n * q.val + x ∧ CAP n * q.val + x < b then v
             else test n (sub q) x)) := by
  have hC := CAP_pos n
  have hdma := Nat.div_add_mod a (CAP n)
  have hdmb := Nat.div_add_mod b (CAP n)
  have hma : a % CAP n < CAP n := Nat.mod_lt _ hC
  have hmb : b % CAP n < CAP n := Nat.mod_lt _ hC
  have hstop16 : (b - 1) / CAP n < 16 := by
    rw [Nat.div_lt_iff_lt_mul hC]
    have hcm : CAP n * 16 = 16 * CAP n := by ring
    omega
  have hstople : (b - 1) / CAP n ≤ b / CAP n := Nat.div_le_div_right (by omega)
  intro fuel
  induction fuel with
  | zero =>
    intro i bs sub hfe hi0 hbs hbits hinv
    refine ⟨bs, sub, rfl, hbs, hbits, hinv, fun q _ => rfl, fun q hq1 hq2 => ?_⟩
    omega
  | succ fuel ih =>
    intro i bs sub hfe hi0 hbs hbits hinv
    have histop : i ≤ (b - 1) / CAP n := by omega
    have hi16 : i < 16 := by omega
    -- validity of the clipped child range
    have hhi1 : 1 ≤ (if b / CAP n = i then b % CAP n else CAP n) := by
      by_cases hbq : b / CAP n = i
      · rw [if_pos hbq]
        by_contra hz
        have hz0 : b % CAP n = 0 := by omega
        have he0 : CAP n * (b / CAP n) = CAP n * i := by rw [hbq]
        have hbi : b = CAP n * i := by omega
        have hi1 : 1 ≤ i := by
          by_contra hi1
          have hie : i = 0 := by omega
          rw [hie] at hbi
          simp at hbi
          omega
        obtain ⟨m, hm⟩ : ∃ m, i = m + 1 := ⟨i - 1, by omega⟩
        rw [hm] at hbi
        have hre : CAP n * (m + 1) = CAP n * m + CAP n := by ring
        have hstop : (b - 1) / CAP n = m := by
          apply div_eq_of_between (CAP n) (b - 1) m hC
          · omega
          · omega
        omega
      · rw [if_neg hbq]
        omega
    have hhile : (if b / CAP n = i then b % CAP n else CAP n) ≤ CAP n := by
      by_cases hbq : b / CAP n = i
      · rw [if_pos hbq]
        omega
      · rw [if_neg hbq]
    have hlole : (if a / CAP n = i then a % CAP n else 0) ≤
        (if b / CAP n = i then b % CAP n else CAP n) := by
      by_cases haq : a / CAP n = i
      · by_cases hbq : b / CAP n = i
        · rw [if_pos haq, if_pos hbq]
          have he1 : CAP n * (a / CAP n) = CAP n * (b / CAP n) := by
            rw [haq, hbq]
          omega
        · rw [if_pos haq, if_neg hbq]
          omega
      · rw [if_neg haq]
        omega
    -- the clipped child interval matches the global interval on block i
    have hiff : ∀ x, x < CAP n →
        (((if a / CAP n = i then a % CAP n else 0) ≤ x ∧
          x < (if b / CAP n = i then b % CAP n else CAP n)) ↔
         (a ≤ CAP n * i + x ∧ CAP n * i + x < b)) := by
      intro x hx
      have hleft : ((if a / CAP n = i then a % CAP n else 0) ≤ x) ↔
          a ≤ CAP n * i + x := by
        by_cases haq : a / CAP n = i
        · rw [if_pos haq]
          have hdma2 : CAP n * i + a % CAP n = a := by
            rw [← haq]
            exact hdma
          omega
        · rw [if_neg haq]
          have halt : a / CAP n < i := by omega
          have he2 : CAP n * (a / CAP n + 1) ≤ CAP n * i :=
            Nat.mul_le_mul_left _ (by omega)
          have he3 : CAP n * (a / CAP n + 1) = CAP n * (a / CAP n) + CAP n := by
            ring
          constructor
          · intro _
            omega
          · intro _
            omega
      have hright : (x < (if b / CAP n = i then b % CAP n else CAP n)) ↔
          CAP n * i + x < b := by
        by_cases hbq : b / CAP n = i
        · rw [if_pos hbq]
          have hdmb2 : CAP n * i + b % CAP n = b := by
            rw [← hbq]
            exact hdmb
          omega
        · rw [if_neg hbq]
          have hblt : i < b / CAP n := by omega
          have he2 : CAP n * (i + 1) ≤ CAP n * (b / CAP n) :=
            Nat.mul_le_mul_left _ (by omega)
          have he3 : CAP n * (i + 1) = CAP n * i + CAP n := by ring
          constructor
          · intro _
            omega
          · intro _
            omega
      rw [hleft, hright]
    obtain ⟨c2, hc2, hinvc2, hptc2⟩ :=
      hf (sub ⟨i, hi16⟩) (if a / CAP n = i then a % CAP n else 0)
        (if b / CAP n = i then b % CAP n else CAP n)
        (hinv ⟨i, hi16⟩) hlole hhile hhi1
    have hunf : forRangeGo n f a b (fuel + 1) i bs sub =
        forRangeGo n f a b fuel (i + 1) (set_bit bs i (any n c2))
          (Function.update sub ⟨i, hi16⟩ c2) := by
      simp only [forRangeGo, dif_pos hi16, hc2]
    obtain ⟨bs2, sub2, hrec, hb2, hbits2, hinv2, hun2, hto2⟩ :=
      ih (i + 1) (set_bit bs i (any n c2)) (Function.update sub ⟨i, hi16⟩ c2)
        (by omega) (by omega) (set_bit_lt bs i _ hbs hi16)
        (by
          intro q
          show (set_bit bs i (any n c2)).testBit q.val = _
          rw [testBit_set_bit bs i q.val _ hbs hi16]
          by_cases he : q.val = i
          · rw [if_pos he]
            have hqe : q = ⟨i, hi16⟩ := Fin.ext he
            rw [hqe, Function.update_same]
          · rw [if_neg he]
            have hqne : q ≠ ⟨i, hi16⟩ := fun hh => he (by rw [hh])
            rw [Function.update_noteq hqne]
            exact hbits q)
        (by
          intro q
          by_cases hqe : q = ⟨i, hi16⟩
          · rw [hqe, Function.update_same]
            exact hinvc2
          · rw [Function.update_noteq hqe]
            exact hinv q)
    refine ⟨bs2, sub2, by rw [hunf]; exact hrec, hb2, hbits2, hinv2, ?_, ?_⟩
    · intro q hq
      have hqne : q ≠ ⟨i, hi16⟩ := by
        intro hh
        have : q.val = i := by rw [hh]
        omega
      have := hun2 q (by
        rcases hq with hq | hq
        · exact Or.inl (by omega)
        · exact Or.inr hq)
      rw [this, Function.update_noteq hqne]
    · intro q hq1 hq2 x hx
      by_cases hqe : q.val = i
      · have hqf : q = ⟨i, hi16⟩ := Fin.ext hqe
        have hsub2 : sub2 q = c2 := by
          have := hun2 q (Or.inl (by omega))
          rw [this, hqf, Function.update_same]
        rw [hsub2, hqf]
        rw [hptc2 x hx]
        rw [if_congr (hiff x hx) rfl rfl]
      · have hto := hto2 q (by omega) hq2 x hx
        have hqne : q ≠ ⟨i, hi16⟩ := fun hh => hqe (by rw [hh])
        rw [Function.update_noteq hqne] at hto
        exact hto

theorem for_range_write_spec (n : Nat)
    (f : BAState n → Nat → Nat → Option (BAState n)) (v : Bool)
    (hf : rangeWriteSpec n f v) :
    ∀ (bs : Nat) (sub : Fin 16 → BAState n) (a b : Nat),
      inv (n + 1) (.node bs sub) → a ≤ b → b ≤ CAP (n + 1) → 1 ≤ b →
      ∃ t2, for_range bs sub a b f = some t2 ∧ inv (n + 1) t2 ∧
        ∀ k, k < CAP (n + 1) → test (n + 1) t2 k =
          (if a ≤ k ∧ k < b then v else test (n + 1) (.node bs sub) k) := by
  intro bs sub a b hinv hab hbcap hb1
  obtain ⟨h1, h2, h3⟩ := hinv
  have hC := CAP_pos n
  obtain ⟨bs2, sub2, hgo, hb2, hbits2, hinv2, hun, hto⟩ :=
    forRangeGo_spec n f v hf a b hab hbcap hb1
      ((b - 1) / CAP n + 1 - a / CAP n) (a / CAP n) bs sub rfl (le_refl _)
      h1 h2 h3
  refine ⟨.node bs2 sub2, ?_, ⟨hb2, hbits2, hinv2⟩, ?_⟩
  · unfold for_range
    rw [if_pos (show a ≤ b ∧ b ≤ CAP n * 16 from ⟨hab, hbcap⟩),
      if_neg (show ¬ b = 0 by omega), hgo]
  · intro k hk
    have hdmk := Nat.div_add_mod k (CAP n)
    have hmk : k % CAP n < CAP n := Nat.mod_lt _ hC
    have hkind : k / CAP n < 16 := by
      rw [Nat.div_lt_iff_lt_mul hC]
      have hcm : CAP n * 16 = 16 * CAP n := by ring
      have : k < CAP n * 16 := hk
      omega
    rw [test_node_decomp n bs2 sub2 k hkind, test_node_decomp n bs sub k hkind]
    by_cases hq : a / CAP n ≤ k / CAP n ∧ k / CAP n ≤ (b - 1) / CAP n
    · have hres := hto ⟨k / CAP n, hkind⟩ hq.1 hq.2 (k % CAP n) hmk
      have hres2 : test n (sub2 ⟨k / CAP n, hkind⟩) (k % CAP n) =
          (if a ≤ CAP n * (k / CAP n) + k % CAP n ∧
              CAP n * (k / CAP n) + k % CAP n < b then v
           else test n (sub ⟨k / CAP n, hkind⟩) (k % CAP n)) := hres
      rw [hres2, hdmk]
    · have hq2 : (k / CAP n) < a / CAP n ∨ (b - 1) / CAP n < k / CAP n := by
        omega
      have hun2 := hun ⟨k / CAP n, hkind⟩ hq2
      rw [hun2]
      have hout : ¬(a ≤ k ∧ k < b) := by
        have hdma := Nat.div_add_mod a (CAP n)
        rcases hq2 with hlt | hgt
        · have he2 : CAP n * (k / CAP n + 1) ≤ CAP n * (a / CAP n) :=
            Nat.mul_le_mul_left _ (by omega)
          have he3 : CAP n * (k / CAP n + 1) = CAP n * (k / CAP n) + CAP n := by
            ring
          intro hcon
          omega
        · have he2 : CAP n * ((b - 1) / CAP n + 1) ≤ CAP n * (k / CAP n) :=
            Nat.mul_le_mul_left _ (by omega)
          have he3 : CAP n * ((b - 1) / CAP n + 1) =
              CAP n * ((b - 1) / CAP n) + CAP n := by ring
          intro hcon
          have hb1lt : b - 1 < CAP n * ((b - 1) / CAP n) + CAP n := by
            have hdmb1 := Nat.div_add_mod (b - 1) (CAP n)
            have := Nat.mod_lt (b - 1) hC
            omega
          omega
      rw [if_neg hout]

theorem insert_spec : ∀ n, rangeWriteSpec n (insert n) true := by
  intro n
  induction n with
  | zero => exact insert_leaf_spec
  | succ n ih =>
    intro t a b hinv hab hbcap hb1
    cases t with
    | node bs sub =>
      obtain ⟨t2, h1, h2, h3⟩ :=
        for_range_write_spec n (insert n) true ih bs sub a b hinv hab hbcap hb1
      exact ⟨t2, h1, h2, h3⟩

theorem remove_spec : ∀ n, rangeWriteSpec n (remove n) false := by
  intro n
  induction n with
  | zero => exact remove_leaf_spec
  | succ n ih =>
    intro t a b hinv hab hbcap hb1
    cases t with
    | node bs sub =>
      obtain ⟨t2, h1, h2, h3⟩ :=
        for_range_write_spec n (remove n) false ih bs sub a b hinv hab hbcap hb1
      exact ⟨t2, h1, h2, h3⟩

theorem alloc_spec : ∀ (n : Nat) (s : BAState n), inv n s →
    (any n s = false → alloc n s = none) ∧
    (any n s = true → ∃ k s2, alloc n s = some (k, s2) ∧ inv n s2 ∧
      k < CAP n ∧ test n s k = true ∧
      (∀ j, k < j → j < CAP n → test n s j = false) ∧
      (∀ j, j < CAP n → test n s2 j = (test n s j && !decide (j = k)))) := by
  intro n
  induction n with
  | zero =>
    intro s h
    cases s with
    | leaf w =>
      have hw : w < 2 ^ 16 := h
      constructor
      · intro ha
        have hw0 : w = 0 := by simpa [any] using ha
        simp [alloc, hw0]
      · intro ha
        have hw0 : w ≠ 0 := by simpa [any] using ha
        have hlt : Nat.log2 w < 16 := log2_lt_16 w hw0 hw
        refine ⟨Nat.log2 w, .leaf (set_bit w (Nat.log2 w) false), ?_, ?_, hlt,
          ?_, ?_, ?_⟩
        · simp [alloc, hw0, log2]
        · exact set_bit_lt w _ false hw hlt
        · simpa [test, get_bit] using testBit_log2_self w hw0
        · intro j hj hj16
          simpa [test, get_bit] using testBit_of_log2_lt w j hj
        · intro j hj16
          show (set_bit w (Nat.log2 w) false).testBit j = _
          rw [testBit_set_bit w _ j false hw hlt]
          by_cases he : j = Nat.log2 w <;> simp [he, test, get_bit]
  | succ n ih =>
    intro s h
    cases s with
    | node bs sub =>
      obtain ⟨h1, h2, h3⟩ := h
      have hC := CAP_pos n
      constructor
      · intro ha
        have hb0 : bs = 0 := by simpa [any] using ha
        simp [alloc, hb0]
      · intro ha
        have hb0 : bs ≠ 0 := by simpa [any] using ha
        have hilt : Nat.log2 bs < 16 := log2_lt_16 bs hb0 h1
        have hbit : bs.testBit (Nat.log2 bs) = true := testBit_log2_self bs hb0
        have hanyc : any n (sub ⟨Nat.log2 bs, hilt⟩) = true := by
          rw [← h2 ⟨Nat.log2 bs, hilt⟩]
          simpa [get_bit] using hbit
        obtain ⟨kc, c2, hc2, hinvc2, hkc, htc, hmaxc, hptc⟩ :=
          (ih (sub ⟨Nat.log2 bs, hilt⟩) (h3 _)).2 hanyc
        have h15 : CAP n * Nat.log2 bs ≤ CAP n * 15 :=
          Nat.mul_le_mul_left _ (by omega)
        have h16e : CAP n * 16 = CAP n * 15 + CAP n := by ring
        refine ⟨kc + Nat.log2 bs * CAP n,
          .node (set_bit bs (Nat.log2 bs) (any n c2))
            (Function.update sub ⟨Nat.log2 bs, hilt⟩ c2), ?_, ?_, ?_, ?_, ?_, ?_⟩
        · simp only [alloc, log2, hb0, bne_self_eq_false]
          simp only [dif_pos hilt, hc2]
          simp [hb0]
        · refine ⟨set_bit_lt bs _ _ h1 hilt, ?_, ?_⟩
          · intro i
            show (set_bit bs (Nat.log2 bs) (any n c2)).testBit i.val = _
            rw [testBit_set_bit bs _ i.val _ h1 hilt]
            by_cases he : i.val = Nat.log2 bs
            · rw [if_pos he]
              have hieq : i = ⟨Nat.log2 bs, hilt⟩ := Fin.ext he
              rw [hieq, Function.update_same]
            · rw [if_neg he]
              have hine : i ≠ ⟨Nat.log2 bs, hilt⟩ := fun hh => he (by rw [hh])
              rw [Function.update_noteq hine]
              exact h2 i
          · intro i
            by_cases hieq : i = ⟨Nat.log2 bs, hilt⟩
            · rw [hieq, Function.update_same]
              exact hinvc2
            · rw [Function.update_noteq hieq]
              exact h3 i
        · show kc + Nat.log2 bs * CAP n < CAP n * 16
          have : Nat.log2 bs * CAP n = CAP n * Nat.log2 bs := by ring
          omega
        · have he : kc + Nat.log2 bs * CAP n = CAP n * Nat.log2 bs + kc := by
            ring
          rw [he, test_node n bs sub ⟨Nat.log2 bs, hilt⟩ kc hkc]
          exact htc
        · intro j hj hj16
          have hj16b : j < CAP n * 16 := hj16
          have hjd : j / CAP n < 16 := by
            rw [Nat.div_lt_iff_lt_mul hC]
            have hcm : CAP n * 16 = 16 * CAP n := by ring
            omega
          have hdmj := Nat.div_add_mod j (CAP n)
          have hmj : j % CAP n < CAP n := Nat.mod_lt _ hC
          have hmul : Nat.log2 bs * CAP n = CAP n * Nat.log2 bs := by ring
          have hjge : Nat.log2 bs ≤ j / CAP n := by
            have : CAP n * Nat.log2 bs ≤ j := by omega
            exact (Nat.le_div_iff_mul_le hC).2 (by omega)
          rw [test_node_decomp n bs sub j hjd]
          by_cases hjq : j / CAP n = Nat.log2 bs
          · have hfe : (⟨j / CAP n, hjd⟩ : Fin 16) = ⟨Nat.log2 bs, hilt⟩ :=
              Fin.ext hjq
            rw [hfe]
            apply hmaxc
            · have he0 : CAP n * (j / CAP n) = CAP n * Nat.log2 bs := by
                rw [hjq]
              omega
            · exact hmj
          · have hjgt : Nat.log2 bs < j / CAP n := by omega
            have hbitj : bs.testBit (j / CAP n) = false :=
              testBit_of_log2_lt bs _ hjgt
            have hanyj : any n (sub ⟨j / CAP n, hjd⟩) = false := by
              rw [← h2 ⟨j / CAP n, hjd⟩]
              simpa [get_bit] using hbitj
            have hempty : ∀ y, y < CAP n →
                test n (sub ⟨j / CAP n, hjd⟩) y = false := by
              intro y hy
              by_contra hcc
              have hty : test n (sub ⟨j / CAP n, hjd⟩) y = true := by
                cases hv : test n (sub ⟨j / CAP n, hjd⟩) y
                · exact absurd hv hcc
                · rfl
              have := (any_iff n (sub ⟨j / CAP n, hjd⟩) (h3 _)).2 ⟨y, hy, hty⟩
              rw [hanyj] at this
              exact Bool.noConfusion this
            exact hempty _ hmj
        · intro j hj16
          have hj16b : j < CAP n * 16 := hj16
          have hjd : j / CAP n < 16 := by
            rw [Nat.div_lt_iff_lt_mul hC]
            have hcm : CAP n * 16 = 16 * CAP n := by ring
            omega
          have hdmj := Nat.div_add_mod j (CAP n)
          have hmj : j % CAP n < CAP n := Nat.mod_lt _ hC
          have hmul : Nat.log2 bs * CAP n = CAP n * Nat.log2 bs := by ring
          rw [test_node_decomp n _ _ j hjd, test_node_decomp n bs sub j hjd]
          by_cases hjq : j / CAP n = Nat.log2 bs
          · have hfe : (⟨j / CAP n, hjd⟩ : Fin 16) = ⟨Nat.log2 bs, hilt⟩ :=
              Fin.ext hjq
            rw [hfe, Function.update_same, hptc (j % CAP n) hmj]
            have he0 : CAP n * Nat.log2 bs + j % CAP n = j := by
              rw [← hjq]
              exact hdmj
            have hiff : (j % CAP n = kc) ↔ (j = kc + Nat.log2 bs * CAP n) := by
              omega
            rw [decide_eq_decide.2 hiff]
          · have hfne : (⟨j / CAP n, hjd⟩ : Fin 16) ≠ ⟨Nat.log2 bs, hilt⟩ := by
              intro hh
              exact hjq (congrArg Fin.val hh)
            rw [Function.update_noteq hfne]
            have hjne : j ≠ kc + Nat.log2 bs * CAP n := by
              intro hh
              apply hjq
              rw [hh]
              have he : kc + Nat.log2 bs * CAP n =
                  CAP n * Nat.log2 bs + kc := by ring
              rw [he]
              exact div_eq_of_between (CAP n) _ _ hC (by omega)
                (by
                  have : CAP n * (Nat.log2 bs + 1) =
                    CAP n * Nat.log2 bs + CAP n := by ring
                  omega)
            simp [hjne]

theorem any_default : ∀ n, any n (DEFAULT n) = false := by
  intro n
  cases n <;> rfl

theorem inv_default : ∀ n, inv n (DEFAULT n) := by
  intro n
  induction n with
  | zero =>
    show (0 : Nat) < 2 ^ 16
    norm_num
  | succ n ih =>
    refine ⟨by norm_num, ?_, fun _ => ih⟩
    intro i
    show (0 : Nat).testBit i.val = any n (DEFAULT n)
    rw [any_default, Nat.zero_testBit]

theorem insert_preserves_inv : ∀ (n : Nat) (s : BAState n) (a b : Nat)
    (s2 : BAState n), inv n s → insert n s a b = some s2 → inv n s2 := by
  intro n
  cases n with
  | zero =>
    intro s a b s2 h hsome
    cases s with
    | leaf w =>
      by_cases hcond : a ≤ b ∧ b ≤ 16
      · have he : insert 0 (.leaf w) a b =
            some (.leaf (set_bits w a b (get_bits (2 ^ 16 - 1) a b))) := by
          simp [insert, hcond]
        rw [he] at hsome
        rw [← Option.some_inj.1 hsome]
        exact leaf_insert_lt w a b h hcond.1 hcond.2
      · have he : insert 0 (.leaf w) a b = none := by
          simp [insert, hcond]
        rw [he] at hsome
        exact Option.noConfusion hsome
  | succ m =>
    intro s a b s2 h hsome
    cases s with
    | node bs sub =>
      by_cases hb0 : b = 0
      · subst hb0
        have he : insert (m + 1) (.node bs sub) a 0 = none := by
          show for_range bs sub a 0 (insert m) = none
          unfold for_range
          by_cases hc : a ≤ 0 ∧ 0 ≤ CAP m * 16
          · rw [if_pos hc, if_pos rfl]
          · rw [if_neg hc]
        rw [he] at hsome
        exact Option.noConfusion hsome
      · by_cases hcond : a ≤ b ∧ b ≤ CAP m * 16
        · obtain ⟨t2, heq, hinv2, _⟩ :=
            insert_spec (m + 1) (.node bs sub) a b h hcond.1 hcond.2 (by omega)
          rw [heq] at hsome
          rw [← Option.some_inj.1 hsome]
          exact hinv2
        · have he : insert (m + 1) (.node bs sub) a b = none := by
            show for_range bs sub a b (insert m) = none
            unfold for_range
            rw [if_neg hcond]
          rw [he] at hsome
          exact Option.noConfusion hsome

theorem remove_preserves_inv : ∀ (n : Nat) (s : BAState n) (a b : Nat)
    (s2 : BAState n), inv n s → remove n s a b = some s2 → inv n s2 := by
  intro n
  cases n with
  | zero =>
    intro s a b s2 h hsome
    cases s with
    | leaf w =>
      by_cases hcond : a ≤ b ∧ b ≤ 16
      · have he : remove 0 (.leaf w) a b = some (.leaf (set_bits w a b 0)) := by
          simp [remove, hcond]
        rw [he] at hsome
        rw [← Option.some_inj.1 hsome]
        exact leaf_remove_lt w a b h hcond.1 hcond.2
      · have he : remove 0 (.leaf w) a b = none := by
          simp [remove, hcond]
        rw [he] at hsome
        exact Option.noConfusion hsome
  | succ m =>
    intro s a b s2 h hsome
    cases s with
    | node bs sub =>
      by_cases hb0 : b = 0
      · subst hb0
        have he : remove (m + 1) (.node bs sub) a 0 = none := by
          show for_range bs sub a 0 (remove m) = none
          unfold for_range
          by_cases hc : a ≤ 0 ∧ 0 ≤ CAP m * 16
          · rw [if_pos hc, if_pos rfl]
          · rw [if_neg hc]
        rw [he] at hsome
        exact Option.noConfusion hsome
      · by_cases hcond : a ≤ b ∧ b ≤ CAP m * 16
        · obtain ⟨t2, heq, hinv2, _⟩ :=
            remove_spec (m + 1) (.node bs sub) a b h hcond.1 hcond.2 (by omega)
          rw [heq] at hsome
          rw [← Option.some_inj.1 hsome]
          exact hinv2
        · have he : remove (m + 1) (.node bs sub) a b = none := by
            show for_range bs sub a b (remove m) = none
            unfold for_range
            rw [if_neg hcond]
          rw [he] at hsome
          exact Option.noConfusion hsome

theorem dealloc_some_bound : ∀ (n : Nat) (s : BAState n) (key : Nat)
    (s2 : BAState n), dealloc n s key = some s2 → key < CAP n := by
  intro n
  cases n with
  | zero =>
    intro s key s2 hsome
    cases s with
    | leaf w =>
      by_cases hk : key < 16
      · exact hk
      · simp [dealloc, hk] at hsome
  | succ m =>
    intro s key s2 hsome
    cases s with
    | node bs sub =>
      by_cases hk : key / CAP m < 16
      · have hC := CAP_pos m
        have hdm := Nat.div_add_mod key (CAP m)
        have hml : key % CAP m < CAP m := Nat.mod_lt _ hC
        have h2 : CAP m * (key / CAP m + 1) ≤ CAP m * 16 :=
          Nat.mul_le_mul_left _ (by omega)
        have he : CAP m * (key / CAP m + 1) =
            CAP m * (key / CAP m) + CAP m := by ring
        show key < CAP m * 16
        omega
      · simp [dealloc, hk] at hsome

theorem dealloc_preserves_inv : ∀ (n : Nat) (s : BAState n) (key : Nat)
    (s2 : BAState n), inv n s → dealloc n s key = some s2 → inv n s2 := by
  intro n s key s2 h hsome
  have hkey := dealloc_some_bound n s key s2 hsome
  by_cases ht : test n s key = true
  · rw [(dealloc_spec n s key h hkey).2 ht] at hsome
    exact Option.noConfusion hsome
  · have htf : test n s key = false := by
      cases hv : test n s key
      · rfl
      · exact absurd hv ht
    obtain ⟨t2, ht2, hinv2, _, _⟩ := (dealloc_spec n s key h hkey).1 htf
    rw [ht2] at hsome
    rw [← Option.some_inj.1 hsome]
    exact hinv2

theorem alloc_preserves_inv : ∀ (n : Nat) (s : BAState n) (k : Nat)
    (s2 : BAState n), inv n s → alloc n s = some (k, s2) → inv n s2 := by
  intro n s k s2 h hsome
  by_cases ha : any n s = true
  · obtain ⟨k2, t2, heq, hinv2, _⟩ := (alloc_spec n s h).2 ha
    rw [heq] at hsome
    have h2 : t2 = s2 := congrArg Prod.snd (Option.some_inj.1 hsome)
    rw [← h2]
    exact hinv2
  · have haf : any n s = false := by
      cases hv : any n s
      · rfl
      · exact absurd hv ha
    rw [(alloc_spec n s h).1 haf] at hsome
    exact Option.noConfusion hsome

theorem alloc_contiguous_preserves_inv : ∀ (n : Nat) (s : BAState n)
    (size a : Nat) (r : Option Nat) (s2 : BAState n), inv n s →
    alloc_contiguous n s size a = some (r, s2) → inv n s2 := by
  intro n s size a r s2 h hsome
  rcases hfc : find_contiguous n s (CAP n) size a with _ | (_ | base)
  · simp only [alloc_contiguous, hfc] at hsome
    exact Option.noConfusion hsome
  · simp only [alloc_contiguous, hfc] at hsome
    have h2 : s = s2 := congrArg Prod.snd (Option.some_inj.1 hsome)
    rw [← h2]
    exact h
  · rcases hrm : remove n s base (base + size) with _ | t
    · simp only [alloc_contiguous, hfc, hrm, Option.map_none'] at hsome
      exact Option.noConfusion hsome
    · simp only [alloc_contiguous, hfc, hrm, Option.map_some'] at hsome
      have h2 : t = s2 := congrArg Prod.snd (Option.some_inj.1 hsome)
      rw [← h2]
      exact remove_preserves_inv n s base (base + size) t h hrm

theorem reachable_inv : ∀ (n : Nat) (s : BAState n), Reachable n s →
    inv n s := by
  intro n s h
  induction h with
  | init => exact inv_default n
  | step_alloc s k s2 _ heq ih => exact alloc_preserves_inv n s k s2 ih heq
  | step_alloc_contiguous s size a r s2 _ heq ih =>
      exact alloc_contiguous_preserves_inv n s size a r s2 ih heq
  | step_dealloc s key s2 _ heq ih =>
      exact dealloc_preserves_inv n s key s2 ih heq
  | step_insert s a b s2 _ heq ih =>
      exact insert_preserves_inv n s a b s2 ih heq
  | step_remove s a b s2 _ heq ih =>
      exact remove_preserves_inv n s a b s2 ih heq

/-- Claim C1: in every composite state reachable from the default state by
successful operations (alloc, alloc_contiguous, dealloc, insert, remove),
every summary bit `i` equals `children[i].any()`; the default state is
reachable, so the invariant holds there as well. -/
theorem C1_summary_invariant (n : Nat) (s : BAState (n + 1))
    (h : Reachable (n + 1) s) :
    ∀ (bs : Nat) (sub : Fin 16 → BAState n), s = .node bs sub →
      ∀ i : Fin 16, get_bit bs i.val = any n (sub i) := by
  intro bs sub hse i
  have hi := reachable_inv (n + 1) s h
  rw [hse] at hi
  exact hi.2.1 i

theorem C1_summary_invariant_witness :
    get_bit 0 (0 : Fin 16).val = any 0 ((fun _ => DEFAULT 0) (0 : Fin 16)) :=
  C1_summary_invariant 0 (DEFAULT 1) (Reachable.init 1) 0
    (fun _ => DEFAULT 0) rfl 0

theorem insert_remove_fail : ∀ (n : Nat) (s : BAState n) (a b : Nat),
    ¬ a ≤ b ∨ CAP n < b →
    insert n s a b = none ∧ remove n s a b = none := by
  intro n
  cases n with
  | zero =>
    intro s a b h
    cases s with
    | leaf w =>
      have hc16 : CAP 0 = 16 := rfl
      have hcond : ¬ (a ≤ b ∧ b ≤ 16) := by omega
      constructor <;> simp [insert, remove, hcond]
  | succ m =>
    intro s a b h
    cases s with
    | node bs sub =>
      have hce : CAP (m + 1) = CAP m * 16 := rfl
      have hcond : ¬ (a ≤ b ∧ b ≤ CAP m * 16) := by omega
      constructor
      · show for_range bs sub a b (insert m) = none
        unfold for_range
        rw [if_neg hcond]
      · show for_range bs sub a b (remove m) = none
        unfold for_range
        rw [if_neg hcond]

/-- Claim C7 (amended): for every range with `start ≤ end ≤ CAP` and
`1 ≤ end`, `insert` succeeds and makes `test` true exactly on the range
(`remove` likewise makes it false), leaving everything outside the range
unchanged; a range with `start > end` or `end > CAP` fails fast.  The
original claim also asserted success for the empty range `0..0`, but on a
composite that range panics: `for_range` computes `end - 1`, which
underflows (see the counterexample). -/
theorem C7_insert_remove (n : Nat) (s : BAState n) (a b : Nat) (h : inv n s)
    (hab : a ≤ b) (hbcap : b ≤ CAP n) (hb1 : 1 ≤ b) :
    (∃ s2, insert n s a b = some s2 ∧
      (∀ k, a ≤ k → k < b → test n s2 k = true) ∧
      (∀ k, k < CAP n → ¬(a ≤ k ∧ k < b) → test n s2 k = test n s k)) ∧
    (∃ s2, remove n s a b = some s2 ∧
      (∀ k, a ≤ k → k < b → test n s2 k = false) ∧
      (∀ k, k < CAP n → ¬(a ≤ k ∧ k < b) → test n s2 k = test n s k)) ∧
    (∀ a2 b2 : Nat, ¬ a2 ≤ b2 ∨ CAP n < b2 →
      insert n s a2 b2 = none ∧ remove n s a2 b2 = none) := by
  refine ⟨?_, ?_, fun a2 b2 hf => insert_remove_fail n s a2 b2 hf⟩
  · obtain ⟨s2, hs2, hinv2, hpt⟩ := insert_spec n s a b h hab hbcap hb1
    refine ⟨s2, hs2, ?_, ?_⟩
    · intro k hk1 hk2
      rw [hpt k (by omega), if_pos ⟨hk1, hk2⟩]
    · intro k hk hout
      rw [hpt k hk, if_neg hout]
  · obtain ⟨s2, hs2, hinv2, hpt⟩ := remove_spec n s a b h hab hbcap hb1
    refine ⟨s2, hs2, ?_, ?_⟩
    · intro k hk1 hk2
      rw [hpt k (by omega), if_pos ⟨hk1, hk2⟩]
    · intro k hk hout
      rw [hpt k hk, if_neg hout]

theorem C7_insert_remove_witness :
    ∃ s2, insert 0 (.leaf 0) 2 5 = some s2 ∧
      (∀ k, 2 ≤ k → k < 5 → test 0 s2 k = true) ∧
      (∀ k, k < CAP 0 → ¬(2 ≤ k ∧ k < 5) → test 0 s2 k = test 0 (.leaf 0) k) := by
  have h : inv 0 (BAState.leaf 0) := by
    show (0 : Nat) < 2 ^ 16
    norm_num
  exact (C7_insert_remove 0 (.leaf 0) 2 5 h (by decide) (by decide)
    (by decide)).1

theorem C7_counterexample :
    (0 ≤ 0 ∧ 0 ≤ CAP 1) ∧ insert 1 (DEFAULT 1) 0 0 = none :=
  ⟨⟨le_refl 0, Nat.zero_le _⟩, rfl⟩

/-- Claim C2: under the summary invariant, `alloc` always returns the
highest-indexed currently free unit and clears exactly that unit (the
nested MSB-first policy); and the capacity-16 scenario
`insert(0..16); remove(8..14)` yields `alloc` results 15, 14, 7. -/
theorem log2_eq_of (x k : Nat) (h1 : 2 ^ k ≤ x) (h2 : x < 2 ^ (k + 1)) :
    Nat.log2 x = k := by
  have hx : x ≠ 0 := by
    have : (1 : Nat) ≤ 2 ^ k := Nat.one_le_two_pow
    omega
  have ha : Nat.log2 x < k + 1 := (Nat.log2_lt hx).2 h2
  have hb : ¬ Nat.log2 x < k := by
    intro hh
    have := (Nat.log2_lt hx).1 hh
    omega
  omega

theorem C2_alloc_msb :
    (∀ (n : Nat) (s : BAState n), inv n s → any n s = true →
      ∃ k s2, alloc n s = some (k, s2) ∧ k < CAP n ∧ test n s k = true ∧
        (∀ j, k < j → j < CAP n → test n s j = false) ∧
        (∀ j, j < CAP n → test n s2 j = (test n s j && !decide (j = k)))) ∧
    (insert 0 (DEFAULT 0) 0 16 = some (.leaf 65535) ∧
     remove 0 (.leaf 65535) 8 14 = some (.leaf 49407) ∧
     alloc 0 (.leaf 49407) = some (15, .leaf 16639) ∧
     alloc 0 (.leaf 16639) = some (14, .leaf 255) ∧
     alloc 0 (.leaf 255) = some (7, .leaf 127)) := by
  constructor
  · intro n s h ha
    obtain ⟨k, s2, heq, _, hk, ht, hmax, hpt⟩ := (alloc_spec n s h).2 ha
    exact ⟨k, s2, heq, hk, ht, hmax, hpt⟩
  · have hl1 : log2 49407 = 15 := log2_eq_of 49407 15 (by norm_num) (by norm_num)
    have hl2 : log2 16639 = 14 := log2_eq_of 16639 14 (by norm_num) (by norm_num)
    have hl3 : log2 255 = 7 := log2_eq_of 255 7 (by norm_num) (by norm_num)
    have hs1 : set_bit 49407 15 false = 16639 := by decide
    have hs2 : set_bit 16639 14 false = 255 := by decide
    have hs3 : set_bit 255 7 false = 127 := by decide
    refine ⟨rfl, rfl, ?_, ?_, ?_⟩
    · simp [alloc, hl1, hs1]
    · simp [alloc, hl2, hs2]
    · simp [alloc, hl3, hs3]

theorem C2_alloc_msb_witness :
    ∃ k s2, alloc 0 (.leaf 49407) = some (k, s2) ∧ k < CAP 0 ∧
      test 0 (.leaf 49407) k = true ∧
      (∀ j, k < j → j < CAP 0 → test 0 (.leaf 49407) j = false) ∧
      (∀ j, j < CAP 0 → test 0 s2 j = (test 0 (.leaf 49407) j && !decide (j = k))) := by
  have h : inv 0 (BAState.leaf 49407) := by
    show (49407 : Nat) < 2 ^ 16
    norm_num
  exact C2_alloc_msb.1 0 (.leaf 49407) h rfl

theorem fcLoop_size_zero (n : Nat) (s : BAState n) (capacity a : Nat) :
    ∀ (fuel base offset : Nat), capacity - offset ≤ fuel → base ≤ offset →
      fcLoop n s capacity 0 a base offset = none := by
  intro fuel
  induction fuel with
  | zero =>
    intro base offset hf hbo
    rw [fcLoop]
    rw [dif_neg (by omega)]
  | succ fuel ih =>
    intro base offset hf hbo
    rw [fcLoop]
    by_cases hoc : offset < capacity
    · rw [dif_pos hoc]
      rcases hnx : next n s offset with _ | nx
      · simp only [hnx]
      · simp only [hnx]
        by_cases hne : nx ≠ offset
        · rw [dif_pos hne]
          by_cases hlt : offset < nx
          · rw [dif_pos hlt]
            apply ih
            · have := lt_shift_self (nx - 1) a
              omega
            · exact le_refl _
          · rw [dif_neg hlt]
        · rw [dif_neg hne]
          rw [if_neg (by omega : ¬ offset + 1 - base = 0)]
          exact ih base (offset + 1) (by omega) (by omega)
    · rw [dif_neg hoc]

/-- Claim C10: `alloc_contiguous` with size 0 always returns `None` (the
scan's success test `offset - base == size` is checked only after an
increment, so it never fires at 0) and leaves the state unchanged. -/
theorem C10_size_zero (n : Nat) (s : BAState n) (a : Nat)
    (halign : 2 ^ a ≤ CAP n) :
    alloc_contiguous n s 0 a = some (none, s) := by
  have hsh : (1 : Nat) <<< a = 2 ^ a := by
    rw [Nat.shiftLeft_eq, one_mul]
  have hfc : find_contiguous n s (CAP n) 0 a = some none := by
    unfold find_contiguous
    rw [if_neg (fun hcon => absurd hcon.2 (by rw [hsh]; omega))]
    by_cases hc : CAP n < 1 <<< a ∨ any n s = false
    · rw [if_pos hc]
    · rw [if_neg hc]
      rw [fcLoop_size_zero n s (CAP n) a (CAP n) 0 0 (by omega) (le_refl 0)]
  simp [alloc_contiguous, hfc]

theorem C10_size_zero_witness :
    2 ^ 2 ≤ CAP 0 ∧ alloc_contiguous 0 (.leaf 65535) 0 2 = some (none, .leaf 65535) :=
  ⟨by decide, C10_size_zero 0 (.leaf 65535) 2 (by decide)⟩

/-- Claim C5 (amended): a `None` result of `alloc_contiguous` leaves the
state untouched (nothing is reserved); `None` is returned immediately
when `capacity < 2 ^ align_log2` with `align_log2 < 64` (so that the
guard's `1 << align_log2` itself is defined) or when no unit is free; for
`align_log2 ≥ 64` the guard's shift overflows `usize` and the call panics
instead of returning `None` (see the counterexample to the original
claim). -/
theorem C5_no_partial :
    (∀ (n : Nat) (s : BAState n) (size a : Nat) (s2 : BAState n),
      alloc_contiguous n s size a = some (none, s2) → s2 = s) ∧
    (∀ (n : Nat) (s : BAState n) (size a : Nat), a < 64 →
      CAP n < 2 ^ a ∨ any n s = false →
      alloc_contiguous n s size a = some (none, s)) ∧
    (∀ (n : Nat) (s : BAState n) (size a : Nat), 64 ≤ a → CAP n < 2 ^ a →
      alloc_contiguous n s size a = none) := by
  refine ⟨?_, ?_, ?_⟩
  · intro n s size a s2 heq
    rcases hfc : find_contiguous n s (CAP n) size a with _ | (_ | base)
    · simp only [alloc_contiguous, hfc] at heq
      exact Option.noConfusion heq
    · simp only [alloc_contiguous, hfc] at heq
      exact (congrArg Prod.snd (Option.some_inj.1 heq)).symm
    · rcases hrm : remove n s base (base + size) with _ | t
      · simp only [alloc_contiguous, hfc, hrm, Option.map_none'] at heq
        exact Option.noConfusion heq
      · simp only [alloc_contiguous, hfc, hrm, Option.map_some'] at heq
        have hfst : some base = (none : Option Nat) :=
          congrArg Prod.fst (Option.some_inj.1 heq)
        exact Option.noConfusion hfst
  · intro n s size a ha hc
    have hsh : (1 : Nat) <<< a = 2 ^ a := by
      rw [Nat.shiftLeft_eq, one_mul]
    have hfc : find_contiguous n s (CAP n) size a = some none := by
      unfold find_contiguous
      rw [if_neg (fun hcon => absurd hcon.1 (by omega))]
      rw [if_pos (by rw [hsh]; exact hc)]
    simp [alloc_contiguous, hfc]
  · intro n s size a ha hcap
    have hsh : (1 : Nat) <<< a = 2 ^ a := by
      rw [Nat.shiftLeft_eq, one_mul]
    have hfc : find_contiguous n s (CAP n) size a = none := by
      unfold find_contiguous
      rw [if_pos (by rw [hsh]; exact ⟨ha, hcap⟩)]
    simp [alloc_contiguous, hfc]

theorem C5_counterexample :
    CAP 0 < 2 ^ 64 ∧ alloc_contiguous 0 (.leaf 65535) 1 64 = none :=
  ⟨by decide, rfl⟩

theorem C5_no_partial_witness :
    alloc_contiguous 0 (.leaf 0) 3 0 = some (none, .leaf 0) :=
  C5_no_partial.2.1 0 (.leaf 0) 3 0 (by omega) (Or.inr rfl)

theorem fcLoop_some_spec (n : Nat) (s : BAState n) (hinv : inv n s)
    (size a : Nat) (hsz : 1 ≤ size) :
    ∀ (fuel base offset : Nat), CAP n - offset ≤ fuel →
      base % 2 ^ a = 0 → base ≤ offset → offset - base < size →
      (∀ k, base ≤ k → k < offset → test n s k = true) →
      (∀ c, c % 2 ^ a = 0 → c < base →
        ∃ k, c ≤ k ∧ k < c + size ∧ test n s k = false) →
      ∀ res, fcLoop n s (CAP n) size a base offset = some res →
        res % 2 ^ a = 0 ∧ res + size ≤ CAP n ∧
        (∀ k, res ≤ k → k < res + size → test n s k = true) ∧
        (∀ c, c % 2 ^ a = 0 → c < res →
          ∃ k, c ≤ k ∧ k < c + size ∧ test n s k = false) := by
  have hpa : 0 < 2 ^ a := Nat.pos_pow_of_pos _ (by norm_num)
  intro fuel
  induction fuel with
  | zero =>
    intro base offset hf _ _ _ _ _ res heq
    rw [fcLoop, dif_neg (by omega)] at heq
    exact Option.noConfusion heq
  | succ fuel ih =>
    intro base offset hf hal hbo hob hfree hmin res heq
    by_cases hoc : offset < CAP n
    · rw [fcLoop, dif_pos hoc] at heq
      rcases hnx : next n s offset with _ | nx
      · simp only [hnx] at heq
        exact Option.noConfusion heq
      · simp only [hnx] at heq
        obtain ⟨hnx1, hnx2, hnx3, hnx4⟩ := (next_spec n s hinv offset).1 nx hnx
        by_cases hne : nx ≠ offset
        · rw [dif_pos hne] at heq
          have hlt : offset < nx := by omega
          rw [dif_pos hlt] at heq
          have hshift := lt_shift_self (nx - 1) a
          refine ih _ _ ?_ ?_ (le_refl _) ?_ ?_ ?_ res heq
          · omega
          · rw [Nat.shiftLeft_eq]
            exact Nat.mul_mod_left _ _
          · omega
          · intro k hk1 hk2
            omega
          · intro c hca hcb
            by_cases hcbase : c < base
            · exact hmin c hca hcbase
            · by_cases hcoff : c ≤ offset
              · exact ⟨offset, hcoff, by omega,
                  hnx4 offset (le_refl _) hlt⟩
              · have hcd := Nat.div_add_mod c (2 ^ a)
                have hble : c < ((nx - 1) / 2 ^ a + 1) * 2 ^ a := by
                  rw [← Nat.shiftRight_eq_div_pow, ← Nat.shiftLeft_eq]
                  exact hcb
                have hcdiv : c / 2 ^ a < (nx - 1) / 2 ^ a + 1 := by
                  by_contra hcc
                  have h5 : ((nx - 1) / 2 ^ a + 1) * 2 ^ a ≤
                      (c / 2 ^ a) * 2 ^ a :=
                    Nat.mul_le_mul_right _ (by omega)
                  have he : (c / 2 ^ a) * 2 ^ a = 2 ^ a * (c / 2 ^ a) := by
                    ring
                  omega
                have hcle : c ≤ (nx - 1) / 2 ^ a * 2 ^ a := by
                  have h5 : 2 ^ a * (c / 2 ^ a) ≤
                      2 ^ a * ((nx - 1) / 2 ^ a) :=
                    Nat.mul_le_mul_left _ (by omega)
                  have he : (nx - 1) / 2 ^ a * 2 ^ a =
                      2 ^ a * ((nx - 1) / 2 ^ a) := by ring
                  omega
                have hdm2 : (nx - 1) / 2 ^ a * 2 ^ a ≤ nx - 1 :=
                  Nat.div_mul_le_self _ _
                have hclt : c < nx := by omega
                exact ⟨c, le_refl _, by omega, hnx4 c (by omega) hclt⟩
        · rw [dif_neg hne] at heq
          have hexo : nx = offset := by omega
          rw [hexo] at hnx3
          by_cases hdone : offset + 1 - base = size
          · rw [if_pos hdone] at heq
            have hres : res = base := (Option.some_inj.1 heq).symm
            subst hres
            refine ⟨hal, by omega, ?_, hmin⟩
            intro k hk1 hk2
            by_cases hko : k < offset
            · exact hfree k hk1 hko
            · have hke : k = offset := by omega
              rw [hke]
              exact hnx3
          · rw [if_neg hdone] at heq
            refine ih base (offset + 1) (by omega) hal (by omega) (by omega)
              ?_ hmin res heq
            intro k hk1 hk2
            by_cases hko : k < offset
            · exact hfree k hk1 hko
            · have hke : k = offset := by omega
              rw [hke]
              exact hnx3
    · rw [fcLoop, dif_neg hoc] at heq
      exact Option.noConfusion heq

theorem find_contiguous_spec (n : Nat) (s : BAState n) (size a : Nat)
    (hinv : inv n s) (hsz : 1 ≤ size) (base : Nat)
    (heq : find_contiguous n s (CAP n) size a = some (some base)) :
    base % 2 ^ a = 0 ∧ base + size ≤ CAP n ∧
    (∀ k, base ≤ k → k < base + size → test n s k = true) ∧
    (∀ c, c % 2 ^ a = 0 → c < base →
      ∃ k, c ≤ k ∧ k < c + size ∧ test n s k = false) := by
  unfold find_contiguous at heq
  by_cases hp : 64 ≤ a ∧ CAP n < 1 <<< a
  · rw [if_pos hp] at heq
    exact Option.noConfusion heq
  · rw [if_neg hp] at heq
    by_cases hc : CAP n < 1 <<< a ∨ any n s = false
    · rw [if_pos hc] at heq
      exact Option.noConfusion (Option.some_inj.1 heq)
    · rw [if_neg hc] at heq
      exact fcLoop_some_spec n s hinv size a hsz (CAP n) 0 0 (by omega)
        (Nat.zero_mod _) (le_refl 0) (by omega) (fun k hk1 hk2 => by omega)
        (fun c hca hcb => by omega) base (Option.some_inj.1 heq)

/-- Claim C4: whenever `alloc_contiguous size align_log2` returns a base
(for size ≥ 1), the base is aligned, every unit of `[base, base+size)` was
free before the call and is allocated after it, and the base is the
smallest aligned start of a fully free run of that length. -/
theorem C4_alloc_contiguous (n : Nat) (s : BAState n) (size a base : Nat)
    (s2 : BAState n) (h : inv n s) (hsz : 1 ≤ size)
    (heq : alloc_contiguous n s size a = some (some base, s2)) :
    base % 2 ^ a = 0 ∧ base + size ≤ CAP n ∧
    (∀ k, base ≤ k → k < base + size → test n s k = true) ∧
    (∀ k, base ≤ k → k < base + size → test n s2 k = false) ∧
    (∀ c, c % 2 ^ a = 0 → c < base →
      ∃ k, c ≤ k ∧ k < c + size ∧ test n s k = false) := by
  rcases hfc : find_contiguous n s (CAP n) size a with _ | (_ | base2)
  · simp only [alloc_contiguous, hfc] at heq
    exact Option.noConfusion heq
  · simp only [alloc_contiguous, hfc] at heq
    have hfst : (none : Option Nat) = some base :=
      congrArg Prod.fst (Option.some_inj.1 heq)
    exact Option.noConfusion hfst
  · rcases hrm : remove n s base2 (base2 + size) with _ | t
    · simp only [alloc_contiguous, hfc, hrm, Option.map_none'] at heq
      exact Option.noConfusion heq
    · simp only [alloc_contiguous, hfc, hrm, Option.map_some'] at heq
      have hp := Option.some_inj.1 heq
      have hb2 : base2 = base := Option.some_inj.1 (congrArg Prod.fst hp)
      have ht2 : t = s2 := congrArg Prod.snd hp
      subst hb2
      subst ht2
      obtain ⟨g1, g2, g3, g4⟩ :=
        find_contiguous_spec n s size a h hsz base2 hfc
      obtain ⟨t2, hrm2, _, hpt⟩ :=
        remove_spec n s base2 (base2 + size) h (by omega) g2 (by omega)
      have htt : t2 = t := by
        rw [hrm2] at hrm
        exact Option.some_inj.1 hrm
      refine ⟨g1, g2, g3, ?_, g4⟩
      intro k hk1 hk2
      rw [← htt, hpt k (by omega), if_pos ⟨hk1, hk2⟩]

theorem C4_alloc_contiguous_witness :
    (0 : Nat) % 2 ^ 0 = 0 ∧ 0 + 1 ≤ CAP 0 ∧
    (∀ k, 0 ≤ k → k < 0 + 1 → test 0 (.leaf 3) k = true) ∧
    (∀ k, 0 ≤ k → k < 0 + 1 → test 0 (.leaf 2) k = false) ∧
    (∀ c, c % 2 ^ 0 = 0 → c < 0 →
      ∃ k, c ≤ k ∧ k < c + 1 ∧ test 0 (.leaf 3) k = false) := by
  have h : inv 0 (BAState.leaf 3) := by
    show (3 : Nat) < 2 ^ 16
    norm_num
  have h1 : next 0 (.leaf 3) 0 = some 0 := by decide
  have hf : fcLoop 0 (.leaf 3) 16 1 0 0 0 = some 0 := by
    rw [fcLoop]
    simp only [h1]
    norm_num
  have hfind : find_contiguous 0 (.leaf 3) (CAP 0) 1 0 = some (some 0) := by
    unfold find_contiguous
    rw [if_neg (by decide), if_neg (by decide)]
    exact congrArg some hf
  have hrm : remove 0 (.leaf 3) 0 (0 + 1) = some (.leaf 2) := rfl
  have heq : alloc_contiguous 0 (.leaf 3) 1 0 = some (some 0, .leaf 2) := by
    simp only [alloc_contiguous, hfind, hrm, Option.map_some']
  exact C4_alloc_contiguous 0 (.leaf 3) 1 0 0 (.leaf 2) h (le_refl 1) heq

end BitmapAlloc
